import Mathlib

/-!
Verification of the expression-evaluation pipeline of `src/calculator.py`
(class `CustomCalc`): tokenization (`split_to_tokens` / `get_number` /
`cast_number`), parenthesis validation (`check_parentheses`), conversion to
postfix notation (`infix_to_postfix`, modelled here as `toPostfixTokens`),
and postfix evaluation (`postfix_calc` / `math_operation`), sequenced by
`eval_math_expr`.

Modelling decisions, all taken from the source:
* Python's dynamically typed tokens (strings) are modelled by the inductive
  type `Tok`, whose constructors are exactly the shapes the tokenizer can
  produce: a number literal (digit/dot characters) and the eight
  single-character symbols of `operators_priors`.
* Python numbers are modelled by `Value`: `int` as `Value.i : Int`,
  `float` as `Value.f : Rat` (an exact idealization of the fractional
  case; the spec's data model asks only for an integral/fractional split).
* Exceptions are modelled by `Except Failure`.  `Failure.calc e` covers the
  `CalculatorError` subclasses caught by the REPL's first handler,
  `Failure.sysExit` is the `sys.exit` on division by zero (a `SystemExit`,
  which is not an `Exception` and escapes both handlers, terminating the
  process), and `Failure.fault f` covers the remaining dynamic errors
  (IndexError from `[0]`/`[1]`/`pop()` on short lists, ValueError from
  `float()`, KeyError/TypeError from the priority-table lookup), which the
  REPL's generic `except Exception` handler reports as unexpected.
-/

namespace Calculator

/-- Tokens, the image of `CustomCalc.split_to_tokens`: a number literal kept
as its characters, or one of the eight keys of `operators_priors`. -/
inductive Tok where
  | num (s : List Char)
  | lparen
  | rparen
  | plus
  | minus
  | times
  | div
  | colon
  | tilde
deriving DecidableEq, Repr

/-- The `CalculatorError` subclasses of calculator.py (`EmptyInputError`,
`ParenthesesError`, `UnexpectedInput`, `NothingToDoError`). -/
inductive CalcErr where
  | emptyInput
  | parenErr
  | unexpected (c : Char)
  | noOperator
deriving DecidableEq, Repr

/-- Dynamic (non-`CalculatorError`) Python exceptions reachable in the
pipeline: IndexError, ValueError from `float`/`int`, KeyError/TypeError from
the priority-table lookup. -/
inductive Fault where
  | indexError
  | valueError
  | badToken
deriving DecidableEq, Repr

/-- How one evaluation can fail: a recoverable `CalculatorError`, the
process-terminating `sys.exit` on division by zero, or an internal fault. -/
inductive Failure where
  | calc (e : CalcErr)
  | sysExit
  | fault (f : Fault)
deriving DecidableEq, Repr

/-- A Python number: `int` or `float` (idealized as an exact rational). -/
inductive Value where
  | i (n : Int)
  | f (q : Rat)
deriving DecidableEq, Repr

/-- The numeric content of a value. -/
def vRat : Value → Rat
  | .i n => (n : Rat)
  | .f q => q

/-- Whether a value is fractional (`float`-typed). -/
def isFrac : Value → Bool
  | .i _ => false
  | .f _ => true

/-- Python `+` on numbers: `int + int = int`, otherwise `float`. -/
def vAdd (a b : Value) : Value :=
  match a, b with
  | .i x, .i y => .i (x + y)
  | _, _ => .f (vRat a + vRat b)

/-- Python `-` on numbers. -/
def vSub (a b : Value) : Value :=
  match a, b with
  | .i x, .i y => .i (x - y)
  | _, _ => .f (vRat a - vRat b)

/-- Python `*` on numbers. -/
def vMul (a b : Value) : Value :=
  match a, b with
  | .i x, .i y => .i (x * y)
  | _, _ => .f (vRat a * vRat b)

/-- Python `arg2 == 0`, the divide-by-zero test (`0` and `0.0` both). -/
def vIsZero (v : Value) : Bool := decide (vRat v = 0)

/-- The character loop of `CustomCalc.get_number`, carrying the `dots`
counter: digits are collected, a dot is collected while `dots < 2`, and the
first other character stops the scan. -/
def getNumAux : List Char → Nat → List Char
  | [], _ => []
  | c :: rest, dots =>
    if c.isDigit then c :: getNumAux rest dots
    else if c = '.' ∧ dots < 2 then c :: getNumAux rest (dots + 1)
    else []

/-- `CustomCalc.get_number`: collect a number literal from the given
position (here: the remaining characters). -/
def get_number (s : List Char) : List Char := getNumAux s 0

/-- Membership in `operators_priors.keys()`. -/
def isOpChar (c : Char) : Bool :=
  c = '(' || c = ')' || c = '+' || c = '-' || c = '*' || c = '/' || c = ':' || c = '~'

/-- The token appended for an operator character (the character itself in
the source; here its `Tok` rendering).  Only applied under `isOpChar`; the
final catch-all is the `~` case. -/
def charToTok (c : Char) : Tok :=
  if c = '(' then .lparen
  else if c = ')' then .rparen
  else if c = '+' then .plus
  else if c = '-' then .minus
  else if c = '*' then .times
  else if c = '/' then .div
  else if c = ':' then .colon
  else .tilde

/-- The scanning loop of `CustomCalc.split_to_tokens` over the
space-stripped characters.  `prev` is the character before the current
position (`none` at position 0), used for the unary-minus test
`cur_pos == 0 or math_str[cur_pos - 1] == '('`; `ops` is the running
`operators` count, incremented for appended non-parenthesis operator
characters (not for a `-` classified as unary). -/
def scanTokens (s : List Char) (prev : Option Char) (acc : List Tok) (ops : Nat) :
    Except Failure (List Tok × Nat) :=
  match s with
  | [] => .ok (acc, ops)
  | c :: rest =>
    if c.isDigit then
      let tail := getNumAux rest 0
      scanTokens (rest.drop tail.length) (some (tail.getLastD c))
        (acc ++ [.num (c :: tail)]) ops
    else if isOpChar c then
      if c = '-' ∧ (prev = none ∨ prev = some '(') then
        scanTokens rest (some c) (acc ++ [.tilde]) ops
      else
        scanTokens rest (some c) (acc ++ [charToTok c])
          (ops + if c = '(' ∨ c = ')' then 0 else 1)
    else .error (.calc (.unexpected c))
termination_by s.length
decreasing_by
  · simp [List.length_drop]; omega
  · simp
  · simp

/-- `CustomCalc.split_to_tokens`: strip spaces (`replace(' ', '')` removes
every space character and nothing else), scan, and fail with
`NothingToDoError` when no operator was counted. -/
def split_to_tokens (math_str : String) : Except Failure (List Tok) :=
  match scanTokens (math_str.data.filter (fun c => c ≠ ' ')) none [] 0 with
  | .error e => .error e
  | .ok (tokenList, ops) =>
    if ops = 0 then .error (.calc .noOperator) else .ok tokenList

/-- The loop of `CustomCalc.check_parentheses` over `token_list[2:]`: the
`opened < closed` test runs before the current token is counted, and the
final inequality test runs after the loop. -/
def cpLoop : List Tok → Nat → Nat → Except Failure Unit
  | [], opened, closed =>
    if opened ≠ closed then .error (.calc .parenErr) else .ok ()
  | t :: rest, opened, closed =>
    if opened < closed then .error (.calc .parenErr)
    else cpLoop rest (opened + if t = .lparen then 1 else 0)
      (closed + if t = .rparen then 1 else 0)

/-- `CustomCalc.check_parentheses`: the counts are seeded from
`token_list[0]` and `token_list[1]` unconditionally, so a list with fewer
than two tokens raises IndexError. -/
def check_parentheses (tokenList : List Tok) : Except Failure Unit :=
  match tokenList with
  | t0 :: t1 :: rest =>
    cpLoop rest
      ((if t0 = .lparen then 1 else 0) + (if t1 = .lparen then 1 else 0))
      ((if t0 = .rparen then 1 else 0) + (if t1 = .rparen then 1 else 0))
  | _ => .error (.fault .indexError)

/-- `operators_priors` as a partial map.  `')'` maps to Python `None`
(comparing it raises TypeError) and a number token is not a key (KeyError);
both dynamic failures are collapsed into `Fault.badToken`. -/
def prior : Tok → Option Nat
  | .lparen => some 1
  | .plus => some 2
  | .minus => some 2
  | .times => some 3
  | .div => some 3
  | .colon => some 3
  | .tilde => some 4
  | .rparen => none
  | .num _ => none

/-- The right-parenthesis loop: `top = stack.pop(); while top != '(' : ...`.
Returns the popped operators in pop order and the stack below the discarded
`'('`; `none` is the IndexError of popping an empty stack. -/
def popUntilLparen : List Tok → List Tok → Option (List Tok × List Tok)
  | [], _ => none
  | t :: rest, acc =>
    if t = .lparen then some (acc, rest) else popUntilLparen rest (acc ++ [t])

/-- The operator branch of the conversion loop: pop while the stack is
non-empty and the top's priority is `>=` the incoming token's, then push the
token.  A missing priority on either side is the collapsed KeyError /
TypeError. -/
def opFold (stack out : List Tok) (t : Tok) : Except Failure (List Tok × List Tok) :=
  match stack with
  | [] => .ok ([t], out)
  | top :: rest =>
    match prior top, prior t with
    | some pt, some pk =>
      if pk ≤ pt then opFold rest (out ++ [top]) t
      else .ok (t :: top :: rest, out)
    | _, _ => .error (.fault .badToken)

/-- One iteration of the conversion loop of `CustomCalc.infix_to_postfix`,
dispatching on `token[0].isdigit()`, `'('`, `')'`, and the operator case.
`Tok.num []` models `token[0]` raising IndexError on an empty string. -/
def i2pStep (st : List Tok × List Tok) (t : Tok) : Except Failure (List Tok × List Tok) :=
  match t with
  | .num [] => .error (.fault .indexError)
  | .num (c :: cs) =>
    if c.isDigit then .ok (st.1, st.2 ++ [.num (c :: cs)])
    else opFold st.1 st.2 (.num (c :: cs))
  | .lparen => .ok (.lparen :: st.1, st.2)
  | .rparen =>
    match popUntilLparen st.1 [] with
    | some (popped, rest) => .ok (rest, st.2 ++ popped)
    | none => .error (.fault .indexError)
  | op => opFold st.1 st.2 op

/-- The conversion loop, one `i2pStep` per token. -/
def i2pRun (st : List Tok × List Tok) : List Tok → Except Failure (List Tok × List Tok)
  | [] => .ok st
  | t :: ts =>
    match i2pStep st t with
    | .ok st' => i2pRun st' ts
    | .error e => .error e

/-- `CustomCalc.infix_to_postfix`: run the loop from empty stacks, then
drain the remaining operator stack onto the output in pop order. -/
def toPostfixTokens (tokens : List Tok) : Except Failure (List Tok) :=
  match i2pRun ([], []) tokens with
  | .ok (stack, out) => .ok (out ++ stack)
  | .error e => .error e

/-- Digit characters to the number they spell. -/
def natOfDigits (s : List Char) : Nat :=
  s.foldl (fun a c => a * 10 + (c.toNat - 48)) 0

/-- The value of a literal with exactly one dot, as Python `float` reads it
(idealized exactly). -/
def ratOfChars (s : List Char) : Rat :=
  let ip := s.takeWhile (fun c => c ≠ '.')
  let fp := (s.dropWhile (fun c => c ≠ '.')).drop 1
  (natOfDigits ip : Rat) + (natOfDigits fp : Rat) / ((10 : Rat) ^ fp.length)

/-- `CustomCalc.cast_number`: `float(number)` when a dot is present, else
`int(number)`.  `none` is the ValueError a malformed literal raises.  On the
digit/dot strings `get_number` produces, `float` succeeds exactly when the
string has one dot and a digit, and `int` exactly when it is a non-empty
digit string. -/
def cast_number (s : List Char) : Option Value :=
  if s.contains '.' then
    if s.count '.' = 1 ∧ s.any Char.isDigit ∧ s.all (fun c => c.isDigit || c = '.') then
      some (.f (ratOfChars s))
    else none
  else
    if s ≠ [] ∧ s.all Char.isDigit then some (.i (natOfDigits s)) else none

/-- `CustomCalc.math_operation`: the `if/elif` chain on the operator
string; anything that is not `+`, `-`/`~`, `:`/`/` multiplies.  Division by
zero is the `sys.exit` call. -/
def math_operation (arg1 arg2 : Value) (op : Tok) : Except Failure Value :=
  match op with
  | .plus => .ok (vAdd arg1 arg2)
  | .minus => .ok (vSub arg1 arg2)
  | .tilde => .ok (vSub arg1 arg2)
  | .colon =>
    if vIsZero arg2 then .error .sysExit else .ok (.f (vRat arg1 / vRat arg2))
  | .div =>
    if vIsZero arg2 then .error .sysExit else .ok (.f (vRat arg1 / vRat arg2))
  | _ => .ok (vMul arg1 arg2)

/-- The two-operand branch of `CustomCalc.postfix_calc`: pop `arg2` then
`arg1` (IndexError if fewer than two values) and push the operation's
result. -/
def pcBinary (stack : List Value) (op : Tok) : Except Failure (List Value) :=
  match stack with
  | b :: a :: rest =>
    match math_operation a b op with
    | .ok r => .ok (r :: rest)
    | .error e => .error e
  | _ => .error (.fault .indexError)

/-- One iteration of `CustomCalc.postfix_calc`: a token whose first
character is a digit is cast and pushed; `'~'` pops one operand with an
implicit left operand `0`; anything else pops `arg2` then `arg1`.  Popping
an empty stack is IndexError. -/
def pcStep (stack : List Value) (t : Tok) : Except Failure (List Value) :=
  match t with
  | .num [] => .error (.fault .indexError)
  | .num (c :: cs) =>
    if c.isDigit then
      match cast_number (c :: cs) with
      | some v => .ok (v :: stack)
      | none => .error (.fault .valueError)
    else pcBinary stack (.num (c :: cs))
  | .tilde =>
    match stack with
    | x :: rest =>
      match math_operation (.i 0) x .tilde with
      | .ok r => .ok (r :: rest)
      | .error e => .error e
    | [] => .error (.fault .indexError)
  | op => pcBinary stack op

/-- The evaluation loop of `CustomCalc.postfix_calc`. -/
def pcRun (stack : List Value) : List Tok → Except Failure (List Value)
  | [] => .ok stack
  | t :: ts =>
    match pcStep stack t with
    | .ok st' => pcRun st' ts
    | .error e => .error e

/-- `CustomCalc.postfix_calc`: run the loop from an empty stack and return
the final `stack.pop()` (IndexError when empty; extra values are ignored). -/
def postfix_calc (postfixList : List Tok) : Except Failure Value :=
  match pcRun [] postfixList with
  | .ok (v :: _) => .ok v
  | .ok [] => .error (.fault .indexError)
  | .error e => .error e

/-- `CustomCalc.eval_math_expr` without the final `print`: the four stages
in sequence, failures propagating unchanged. -/
def eval_math_expr (mathExpr : String) : Except Failure Value :=
  match split_to_tokens mathExpr with
  | .error e => .error e
  | .ok tokens =>
    match check_parentheses tokens with
    | .error e => .error e
    | .ok _ =>
      match toPostfixTokens tokens with
      | .error e => .error e
      | .ok postfixExpr => postfix_calc postfixExpr

/-- Decidable equality of results, for concrete evaluations. -/
instance {ε α : Type} [DecidableEq ε] [DecidableEq α] : DecidableEq (Except ε α) := by
  intro x y
  cases x <;> cases y
  case error.error a b =>
    exact if h : a = b then .isTrue (by rw [h]) else .isFalse (by intro hc; cases hc; exact h rfl)
  case error.ok a b => exact .isFalse (by intro hc; cases hc)
  case ok.error a b => exact .isFalse (by intro hc; cases hc)
  case ok.ok a b =>
    exact if h : a = b then .isTrue (by rw [h]) else .isFalse (by intro hc; cases hc; exact h rfl)

/-! ## Helper notions used in theorem statements -/

/-- A well-formed token: a number token produced by the tokenizer starts
with a digit and is non-empty; symbol tokens carry no data. -/
def wfTok : Tok → Bool
  | .num [] => false
  | .num (c :: _) => c.isDigit
  | _ => true

/-- Tokens that are operator tokens (not numbers, not parentheses); the
unary-minus token counts here. -/
def opish : Tok → Bool
  | .num _ => false
  | .lparen => false
  | .rparen => false
  | _ => true

/-- Binary operator tokens: the counted operators of the scan when the
input has no literal `~` character (a `-` classified as unary is excluded). -/
def isBinOp : Tok → Bool
  | .plus => true
  | .minus => true
  | .times => true
  | .div => true
  | .colon => true
  | _ => false

/-- Number of binary operator tokens in a list. -/
def binCount (l : List Tok) : Nat := l.countP isBinOp

/-- Number of left parentheses in a token list. -/
def opensIn : List Tok → Nat
  | [] => 0
  | t :: ts => (if t = Tok.lparen then 1 else 0) + opensIn ts

/-- Number of right parentheses in a token list. -/
def closesIn : List Tok → Nat
  | [] => 0
  | t :: ts => (if t = Tok.rparen then 1 else 0) + closesIn ts

/-- The string with every space character removed, as `replace(' ', '')`
produces it. -/
def despace (s : String) : String := ⟨s.data.filter (fun c => c ≠ ' ')⟩

/-- Every element of the operator stack has a priority and it is `≥ k`. -/
def PendGE (k : Nat) (pend : List Tok) : Prop :=
  ∀ q ∈ pend, ∃ pq, prior q = some pq ∧ k ≤ pq

/-- The stack is empty or its top has a priority `< k`, so a priority-`k`
pop loop stops without touching it. -/
def BlockedLT (k : Nat) (S : List Tok) : Prop :=
  match S with
  | [] => True
  | q :: _ => ∃ pq, prior q = some pq ∧ pq < k

/-! ## The reference semantics for C1

An abstract syntax tree of the expressions the spec calls valid, a
recursive-descent parser for the spec's grammar (standard precedence,
left-to-right associativity, unary minus binding one following primary and
occurring only at the start of the expression or right after a left
parenthesis), and the standard evaluation of such a tree.  These
definitions follow the specification's words, not the source, and C1
compares the pipeline against them. -/

/-- Expression trees. -/
inductive AExp where
  | num (s : List Char)
  | neg (e : AExp)
  | add (a b : AExp)
  | sub (a b : AExp)
  | mul (a b : AExp)
  | dvd (a b : AExp)
deriving DecidableEq, Repr

/-- All number literals of a tree are non-empty and start with a digit. -/
def wfA : AExp → Bool
  | .num [] => false
  | .num (c :: _) => c.isDigit
  | .neg e => wfA e
  | .add a b => wfA a && wfA b
  | .sub a b => wfA a && wfA b
  | .mul a b => wfA a && wfA b
  | .dvd a b => wfA a && wfA b

/-- The postfix rendering of a tree (operands before their operator). -/
def postA : AExp → List Tok
  | .num s => [.num s]
  | .neg e => postA e ++ [.tilde]
  | .add a b => postA a ++ postA b ++ [.plus]
  | .sub a b => postA a ++ postA b ++ [.minus]
  | .mul a b => postA a ++ postA b ++ [.times]
  | .dvd a b => postA a ++ postA b ++ [.div]

/-- Standard evaluation of a tree: literals by `cast_number`, negation as
`0 - x`, division fractional and undefined on a zero divisor, the other
operators with the usual numeric promotion. -/
def evalA : AExp → Option Value
  | .num s => cast_number s
  | .neg e =>
    match evalA e with
    | some x => some (vSub (.i 0) x)
    | none => none
  | .add a b =>
    match evalA a, evalA b with
    | some x, some y => some (vAdd x y)
    | _, _ => none
  | .sub a b =>
    match evalA a, evalA b with
    | some x, some y => some (vSub x y)
    | _, _ => none
  | .mul a b =>
    match evalA a, evalA b with
    | some x, some y => some (vMul x y)
    | _, _ => none
  | .dvd a b =>
    match evalA a, evalA b with
    | some x, some y => if vIsZero y then none else some (.f (vRat x / vRat y))
    | _, _ => none

mutual

/-- Primary: a number literal or a parenthesized expression. -/
def parseP : Nat → List Tok → Option (AExp × List Tok)
  | 0, _ => none
  | _ + 1, .num s :: rest => some (.num s, rest)
  | fuel + 1, .lparen :: rest =>
    match parseE fuel rest with
    | some (e, .rparen :: r) => some (e, r)
    | _ => none
  | _ + 1, _ => none

/-- A factor that may start with unary minus (allowed only where `parseU`
is invoked: at the start of the whole expression or right after `(`);
the minus binds to a single primary. -/
def parseU : Nat → List Tok → Option (AExp × List Tok)
  | 0, _ => none
  | fuel + 1, .tilde :: rest =>
    match parseP fuel rest with
    | some (p, r) => some (.neg p, r)
    | none => none
  | fuel + 1, ts => parseP fuel ts

/-- Left-associative chain of `*` and `/` continuing a term. -/
def parseTLoop : Nat → AExp → List Tok → Option (AExp × List Tok)
  | 0, _, _ => none
  | fuel + 1, acc, .times :: rest =>
    match parseP fuel rest with
    | some (f, r) => parseTLoop fuel (.mul acc f) r
    | none => none
  | fuel + 1, acc, .div :: rest =>
    match parseP fuel rest with
    | some (f, r) => parseTLoop fuel (.dvd acc f) r
    | none => none
  | _ + 1, acc, ts => some (acc, ts)

/-- The first term of an expression (may start with unary minus). -/
def parseT1 (fuel : Nat) (ts : List Tok) : Option (AExp × List Tok) :=
  match fuel with
  | 0 => none
  | fuel + 1 =>
    match parseU fuel ts with
    | some (u, r) => parseTLoop fuel u r
    | none => none

/-- A subsequent term (no unary minus allowed). -/
def parseT (fuel : Nat) (ts : List Tok) : Option (AExp × List Tok) :=
  match fuel with
  | 0 => none
  | fuel + 1 =>
    match parseP fuel ts with
    | some (f, r) => parseTLoop fuel f r
    | none => none

/-- Left-associative chain of `+` and `-` continuing an expression. -/
def parseELoop : Nat → AExp → List Tok → Option (AExp × List Tok)
  | 0, _, _ => none
  | fuel + 1, acc, .plus :: rest =>
    match parseT fuel rest with
    | some (t, r) => parseELoop fuel (.add acc t) r
    | none => none
  | fuel + 1, acc, .minus :: rest =>
    match parseT fuel rest with
    | some (t, r) => parseELoop fuel (.sub acc t) r
    | none => none
  | _ + 1, acc, ts => some (acc, ts)

/-- A full expression. -/
def parseE (fuel : Nat) (ts : List Tok) : Option (AExp × List Tok) :=
  match fuel with
  | 0 => none
  | fuel + 1 =>
    match parseT1 fuel ts with
    | some (t, r) => parseELoop fuel t r
    | none => none

end

/-- Soundness statement for primaries: the tokens a primary parse consumes
are converted in place — any operator stack is untouched and the primary's
postfix rendering is appended to the output. -/
def StmtP (fuel : Nat) : Prop :=
  ∀ ts p rest, parseP fuel ts = some (p, rest) → (∀ t ∈ ts, wfTok t = true) →
    ∃ pre, ts = pre ++ rest ∧ wfA p = true ∧
      ∀ S out, i2pRun (S, out) pre = .ok (S, out ++ postA p)

/-- Soundness statement for a unary-allowed factor: conversion leaves a
pending tail of operators (priority ≥ 3) on the stack; output followed by
pending in pop order is the postfix rendering. -/
def StmtU (fuel : Nat) : Prop :=
  ∀ ts u rest, parseU fuel ts = some (u, rest) → (∀ t ∈ ts, wfTok t = true) →
    ∃ pre, ts = pre ++ rest ∧ wfA u = true ∧
      ∀ S out, BlockedLT 3 S →
        ∃ pend w, postA u = w ++ pend ∧ PendGE 3 pend ∧
          i2pRun (S, out) pre = .ok (pend ++ S, out ++ w)

/-- Soundness statement for the `*`/`/` continuation loop. -/
def StmtTLoop (fuel : Nat) : Prop :=
  ∀ ts acc t rest, parseTLoop fuel acc ts = some (t, rest) →
    (∀ t' ∈ ts, wfTok t' = true) →
    ∃ pre, ts = pre ++ rest ∧ (wfA acc = true → wfA t = true) ∧
      ∀ S out pend w, BlockedLT 3 S → PendGE 3 pend → postA acc = w ++ pend →
        ∃ pend' w', postA t = w' ++ pend' ∧ PendGE 3 pend' ∧
          i2pRun (pend ++ S, out ++ w) pre = .ok (pend' ++ S, out ++ w')

/-- Soundness statement for the first term of an expression. -/
def StmtT1 (fuel : Nat) : Prop :=
  ∀ ts t rest, parseT1 fuel ts = some (t, rest) → (∀ t' ∈ ts, wfTok t' = true) →
    ∃ pre, ts = pre ++ rest ∧ wfA t = true ∧
      ∀ S out, BlockedLT 3 S →
        ∃ pend w, postA t = w ++ pend ∧ PendGE 3 pend ∧
          i2pRun (S, out) pre = .ok (pend ++ S, out ++ w)

/-- Soundness statement for a subsequent term. -/
def StmtT (fuel : Nat) : Prop :=
  ∀ ts t rest, parseT fuel ts = some (t, rest) → (∀ t' ∈ ts, wfTok t' = true) →
    ∃ pre, ts = pre ++ rest ∧ wfA t = true ∧
      ∀ S out, BlockedLT 3 S →
        ∃ pend w, postA t = w ++ pend ∧ PendGE 3 pend ∧
          i2pRun (S, out) pre = .ok (pend ++ S, out ++ w)

/-- Soundness statement for the `+`/`-` continuation loop. -/
def StmtELoop (fuel : Nat) : Prop :=
  ∀ ts acc e rest, parseELoop fuel acc ts = some (e, rest) →
    (∀ t' ∈ ts, wfTok t' = true) →
    ∃ pre, ts = pre ++ rest ∧ (wfA acc = true → wfA e = true) ∧
      ∀ S out pend w, BlockedLT 2 S → PendGE 2 pend → postA acc = w ++ pend →
        ∃ pend' w', postA e = w' ++ pend' ∧ PendGE 2 pend' ∧
          i2pRun (pend ++ S, out ++ w) pre = .ok (pend' ++ S, out ++ w')

/-- Soundness statement for full expressions. -/
def StmtE (fuel : Nat) : Prop :=
  ∀ ts e rest, parseE fuel ts = some (e, rest) → (∀ t' ∈ ts, wfTok t' = true) →
    ∃ pre, ts = pre ++ rest ∧ wfA e = true ∧
      ∀ S out, BlockedLT 2 S →
        ∃ pend w, postA e = w ++ pend ∧ PendGE 2 pend ∧
          i2pRun (S, out) pre = .ok (pend ++ S, out ++ w)

/-! ## Basic facts about the scanner -/

theorem scanTokens_nil (prev : Option Char) (acc : List Tok) (ops : Nat) :
    scanTokens [] prev acc ops = .ok (acc, ops) := by
  rw [scanTokens]

theorem scanTokens_digit (c : Char) (rest : List Char) (prev : Option Char)
    (acc : List Tok) (ops : Nat) (hc : c.isDigit = true) :
    scanTokens (c :: rest) prev acc ops =
      scanTokens (rest.drop (getNumAux rest 0).length)
        (some ((getNumAux rest 0).getLastD c)) (acc ++ [.num (c :: getNumAux rest 0)]) ops := by
  rw [scanTokens]
  simp [hc]

theorem scanTokens_op (c : Char) (rest : List Char) (prev : Option Char)
    (acc : List Tok) (ops : Nat) (hc : c.isDigit = false) (hop : isOpChar c = true) :
    scanTokens (c :: rest) prev acc ops =
      if c = '-' ∧ (prev = none ∨ prev = some '(') then
        scanTokens rest (some c) (acc ++ [.tilde]) ops
      else
        scanTokens rest (some c) (acc ++ [charToTok c])
          (ops + if c = '(' ∨ c = ')' then 0 else 1) := by
  rw [scanTokens]
  simp [hc, hop]

theorem scanTokens_bad (c : Char) (rest : List Char) (prev : Option Char)
    (acc : List Tok) (ops : Nat) (hc : c.isDigit = false) (hop : isOpChar c = false) :
    scanTokens (c :: rest) prev acc ops = .error (.calc (.unexpected c)) := by
  rw [scanTokens]
  simp [hc, hop]

/-- Scanning only ever appends to the token accumulator. -/
theorem scanTokens_acc (s : List Char) (prev : Option Char) (acc : List Tok) (ops : Nat)
    (tl : List Tok) (n : Nat) (h : scanTokens s prev acc ops = .ok (tl, n)) :
    ∃ new, tl = acc ++ new := by
  induction s, prev, acc, ops using scanTokens.induct generalizing tl n with
  | case1 prev acc ops =>
    rw [scanTokens_nil] at h
    simp only [Except.ok.injEq, Prod.mk.injEq] at h
    exact ⟨[], by simp [← h.1]⟩
  | case2 prev acc ops c rest hdig tail ih =>
    rw [scanTokens_digit c rest prev acc ops hdig] at h
    obtain ⟨new, hnew⟩ := ih _ _ h
    exact ⟨Tok.num (c :: getNumAux rest 0) :: new, by simp [hnew]⟩
  | case3 prev acc ops c rest hdig hop hcond ih =>
    rw [scanTokens_op c rest prev acc ops (by simpa using hdig) hop, if_pos hcond] at h
    obtain ⟨new, hnew⟩ := ih _ _ h
    exact ⟨Tok.tilde :: new, by simp [hnew]⟩
  | case4 prev acc ops c rest hdig hop hcond ih =>
    rw [scanTokens_op c rest prev acc ops (by simpa using hdig) hop, if_neg hcond] at h
    obtain ⟨new, hnew⟩ := ih _ _ h
    exact ⟨charToTok c :: new, by simp [hnew]⟩
  | case5 prev acc ops c rest hdig hop =>
    rw [scanTokens_bad c rest prev acc ops (by simpa using hdig) (by simpa using hop)] at h
    cases h

/-- Every token the scanner produces is well-formed. -/
theorem scanTokens_wf (s : List Char) (prev : Option Char) (acc : List Tok) (ops : Nat)
    (tl : List Tok) (n : Nat) (h : scanTokens s prev acc ops = .ok (tl, n))
    (hacc : ∀ t ∈ acc, wfTok t = true) : ∀ t ∈ tl, wfTok t = true := by
  induction s, prev, acc, ops using scanTokens.induct generalizing tl n with
  | case1 prev acc ops =>
    rw [scanTokens_nil] at h
    simp only [Except.ok.injEq, Prod.mk.injEq] at h
    exact h.1 ▸ hacc
  | case2 prev acc ops c rest hdig tail ih =>
    rw [scanTokens_digit c rest prev acc ops hdig] at h
    refine ih _ _ h ?_
    intro t ht
    rcases List.mem_append.1 ht with h1 | h1
    · exact hacc t h1
    · simp at h1
      subst h1
      simp [wfTok, hdig]
  | case3 prev acc ops c rest hdig hop hcond ih =>
    rw [scanTokens_op c rest prev acc ops (by simpa using hdig) hop, if_pos hcond] at h
    refine ih _ _ h ?_
    intro t ht
    rcases List.mem_append.1 ht with h1 | h1
    · exact hacc t h1
    · simp at h1; subst h1; rfl
  | case4 prev acc ops c rest hdig hop hcond ih =>
    rw [scanTokens_op c rest prev acc ops (by simpa using hdig) hop, if_neg hcond] at h
    refine ih _ _ h ?_
    intro t ht
    rcases List.mem_append.1 ht with h1 | h1
    · exact hacc t h1
    · simp at h1
      subst h1
      simp only [charToTok]
      split <;> try rfl
      split <;> try rfl
      split <;> try rfl
      split <;> try rfl
      split <;> try rfl
      split <;> try rfl
      split <;> rfl
  | case5 prev acc ops c rest hdig hop =>
    rw [scanTokens_bad c rest prev acc ops (by simpa using hdig) (by simpa using hop)] at h
    cases h

/-- The number scan never collects more dots than its counter allows. -/
theorem getNumAux_dots (s : List Char) (d : Nat) (hd : d ≤ 2) :
    (getNumAux s d).count '.' + d ≤ 2 := by
  induction s generalizing d with
  | nil => simpa [getNumAux]
  | cons c rest ih =>
    by_cases hc : c.isDigit
    · have hcd : ('.' : Char) ≠ c := by
        intro h
        rw [← h] at hc
        simp at hc
      have hcd2 : ¬(c = '.') := fun h => hcd h.symm
      simp only [getNumAux, hc, if_pos, List.count_cons]
      have := ih d hd
      simp [hcd, hcd2]
      omega
    · by_cases hdot : c = '.' ∧ d < 2
      · obtain ⟨hc1, hd2⟩ := hdot
        subst hc1
        simp only [getNumAux, hc, if_false, hd2, and_true, if_pos, List.count_cons]
        have := ih (d + 1) (by omega)
        simp
        omega
      · simp only [getNumAux, hc, if_false, hdot]
        simpa using hd

/-! ## Concrete token lists, shared by several claim proofs -/

theorem tokens_ex1 : split_to_tokens "2+3*4" =
    .ok [.num ['2'], .plus, .num ['3'], .times, .num ['4']] := by
  simp [split_to_tokens, scanTokens, getNumAux, charToTok, isOpChar]

theorem tokens_ex2 : split_to_tokens "(2+3)*4" =
    .ok [.lparen, .num ['2'], .plus, .num ['3'], .rparen, .times, .num ['4']] := by
  simp [split_to_tokens, scanTokens, getNumAux, charToTok, isOpChar]

theorem tokens_ex3 : split_to_tokens "-5+3" =
    .ok [.tilde, .num ['5'], .plus, .num ['3']] := by
  simp [split_to_tokens, scanTokens, getNumAux, charToTok, isOpChar]

theorem tokens_ex4 : split_to_tokens "(-5+3)*2" =
    .ok [.lparen, .tilde, .num ['5'], .plus, .num ['3'], .rparen, .times, .num ['2']] := by
  simp [split_to_tokens, scanTokens, getNumAux, charToTok, isOpChar]

theorem tokens_ex5 : split_to_tokens "10/2" =
    .ok [.num ['1', '0'], .div, .num ['2']] := by
  simp [split_to_tokens, scanTokens, getNumAux, charToTok, isOpChar]

theorem tokens_ex6 : split_to_tokens "5/0" =
    .ok [.num ['5'], .div, .num ['0']] := by
  simp [split_to_tokens, scanTokens, getNumAux, charToTok, isOpChar]

theorem tokens_ex7 : split_to_tokens "1.2.3+1" =
    .ok [.num ['1', '.', '2', '.', '3'], .plus, .num ['1']] := by
  simp [split_to_tokens, scanTokens, getNumAux, charToTok, isOpChar]

theorem tokens_ex8 : split_to_tokens "+" = .ok [.plus] := by
  simp [split_to_tokens, scanTokens, getNumAux, charToTok, isOpChar]

/-! ## Claim theorems (first batch) -/

/-- C4: the tokenizer classifies a `-` as unary minus exactly when it is at
the very start of the space-stripped expression (`prev = none`) or the
previous character is `(`, and otherwise as binary subtraction (counting it
as an operator); unary minus binds one following primary, so
`evaluate("-5+3") = -2` and `evaluate("(-5+3)*2") = -4`. -/
theorem c4_unary_minus_classification :
    (∀ (rest : List Char) (prev : Option Char) (acc : List Tok) (ops : Nat),
      scanTokens ('-' :: rest) prev acc ops =
        if prev = none ∨ prev = some '(' then
          scanTokens rest (some '-') (acc ++ [Tok.tilde]) ops
        else
          scanTokens rest (some '-') (acc ++ [Tok.minus]) (ops + 1)) ∧
    eval_math_expr "-5+3" = .ok (.i (-2)) ∧
    eval_math_expr "(-5+3)*2" = .ok (.i (-4)) := by
  refine ⟨?_, ?_, ?_⟩
  · intro rest prev acc ops
    rw [scanTokens_op '-' rest prev acc ops (by decide) (by decide)]
    simp +decide [charToTok]
  · rw [eval_math_expr, tokens_ex3]
    decide
  · rw [eval_math_expr, tokens_ex4]
    decide

/-- C9: the number scanner accepts up to two decimal points into a single
number token (it stops only at a third); `"1.2.3"` in `"1.2.3+1"` becomes
one token with no tokenizer error, and the failure surfaces later, at
numeric parsing inside the postfix evaluator (Python `float` raising
ValueError), not as a recoverable `CalculatorError`. -/
theorem c9_two_dot_literals :
    (∀ s : List Char, (get_number s).count '.' ≤ 2) ∧
    get_number ['1', '.', '2', '.', '3', '.', '4'] = ['1', '.', '2', '.', '3'] ∧
    split_to_tokens "1.2.3+1" = .ok [.num ['1', '.', '2', '.', '3'], .plus, .num ['1']] ∧
    eval_math_expr "1.2.3+1" = .error (.fault .valueError) ∧
    (∀ e : CalcErr, Failure.fault .valueError ≠ .calc e) := by
  refine ⟨?_, by decide, tokens_ex7, ?_, ?_⟩
  · intro s
    simpa [get_number] using getNumAux_dots s 0 (by omega)
  · rw [eval_math_expr, tokens_ex7]
    decide
  · intro e h
    cases h

/-- C10: the Validator reads the first two entries of the token list
unconditionally, so the input `"+"`, which the tokenizer accepts as the
single token `+`, makes `check_parentheses` index out of bounds — an
internal IndexError that is neither a `CalculatorError` nor the fatal
divide-by-zero condition. -/
theorem c10_validator_short_list :
    split_to_tokens "+" = .ok [.plus] ∧
    check_parentheses [.plus] = .error (.fault .indexError) ∧
    eval_math_expr "+" = .error (.fault .indexError) ∧
    (∀ e : CalcErr, Failure.fault .indexError ≠ .calc e) ∧
    Failure.fault .indexError ≠ .sysExit := by
  refine ⟨tokens_ex8, by decide, ?_, ?_, by decide⟩
  · rw [eval_math_expr, tokens_ex8]
    decide
  · intro e h
    cases h

/-- C3: dividing by an operand that is exactly zero is the fatal
divide-by-zero condition: `math_operation` signals the process-terminating
`sys.exit` (never a numeric result), `evaluate("5/0")` ends in that fatal
condition, and the condition is distinct from every recoverable
`CalculatorError`. -/
theorem c3_division_by_zero_fatal :
    (∀ a b : Value, vIsZero b = true → math_operation a b .div = .error .sysExit) ∧
    (∀ a b : Value, vIsZero b = true → math_operation a b .colon = .error .sysExit) ∧
    eval_math_expr "5/0" = .error .sysExit ∧
    (∀ e : CalcErr, Failure.sysExit ≠ .calc e) := by
    refine ⟨?_, ?_, ?_, ?_⟩
    · intro a b hb
      simp [math_operation, hb]
    · intro a b hb
      simp [math_operation, hb]
    · rw [eval_math_expr, tokens_ex6]
      decide
    · intro e h
      cases h

/-- Witness for C3 at a concrete division. -/
theorem c3_division_by_zero_fatal_witness :
    math_operation (.i 5) (.i 0) .div = .error .sysExit :=
  c3_division_by_zero_fatal.1 (.i 5) (.i 0) (by decide)

/-- C7: a literal is fractional exactly when it contains a decimal point;
division always produces a fractional value (`evaluate("10/2") = 5.0`,
fractional-typed); and `+`, `-`, `*` produce a fractional value exactly
when at least one operand is fractional. -/
theorem c7_numeric_promotion :
    (∀ (s : List Char) (v : Value), cast_number s = some v →
      (isFrac v = true ↔ s.contains '.' = true)) ∧
    (∀ (a b v : Value), math_operation a b .div = .ok v → isFrac v = true) ∧
    (∀ (a b v : Value), math_operation a b .plus = .ok v →
      (isFrac v = true ↔ (isFrac a = true ∨ isFrac b = true))) ∧
    (∀ (a b v : Value), math_operation a b .minus = .ok v →
      (isFrac v = true ↔ (isFrac a = true ∨ isFrac b = true))) ∧
    (∀ (a b v : Value), math_operation a b .times = .ok v →
      (isFrac v = true ↔ (isFrac a = true ∨ isFrac b = true))) ∧
    eval_math_expr "10/2" = .ok (.f 5) := by
  refine ⟨?_, ?_, ?_, ?_, ?_, ?_⟩
  · intro s v h
    rw [cast_number] at h
    by_cases hdot : s.contains '.'
    · rw [if_pos hdot] at h
      split at h
      · cases h
        simpa [isFrac] using hdot
      · cases h
    · rw [if_neg hdot] at h
      split at h
      · cases h
        simp [isFrac]
        simpa using hdot
      · cases h
  · intro a b v h
    rw [math_operation] at h
    split at h
    · cases h
    · cases h
      rfl
  · intro a b v h
    simp only [math_operation, Except.ok.injEq] at h
    subst h
    cases a <;> cases b <;> simp [vAdd, isFrac]
  · intro a b v h
    simp only [math_operation, Except.ok.injEq] at h
    subst h
    cases a <;> cases b <;> simp [vSub, isFrac]
  · intro a b v h
    simp only [math_operation, Except.ok.injEq] at h
    subst h
    cases a <;> cases b <;> simp [vMul, isFrac]
  · rw [eval_math_expr, tokens_ex5]
    simp +decide [check_parentheses, cpLoop, toPostfixTokens, i2pRun, i2pStep, opFold,
      popUntilLparen, prior, postfix_calc, pcRun, pcStep, pcBinary, cast_number,
      math_operation, vIsZero, vRat, natOfDigits, ratOfChars]
    norm_num

/-- Witness for C7 at concrete values: casting `5` is integral, and an
integer sum stays integral. -/
theorem c7_numeric_promotion_witness :
    (isFrac (Value.i 5) = true ↔ (['5'].contains '.') = true) ∧
    (isFrac (Value.i 3) = true ↔ (isFrac (Value.i 1) = true ∨ isFrac (Value.i 2) = true)) :=
  ⟨c7_numeric_promotion.1 ['5'] (.i 5) (by decide),
   c7_numeric_promotion.2.2.1 (.i 1) (.i 2) (.i 3) (by decide)⟩

/-- C2 counterexample: the Validator accepts the token sequence `) (`
(its incremental check only starts at the third token, and the totals
match), yet the converter's right-parenthesis branch pops an empty
operator stack on it. -/
theorem c2_validator_pass_pop_empty :
    check_parentheses [.rparen, .lparen] = .ok () ∧
    toPostfixTokens [.rparen, .lparen] = .error (.fault .indexError) := by
  decide

/-- C5 counterexample: the scan of `"-5"` produces the unary-minus token
`~`, yet its operator count stays zero, so tokenization fails with
`NoOperator` even though a unary arithmetic operator was found. -/
theorem c5_unary_not_counted :
    scanTokens ['-', '5'] none [] 0 = .ok ([.tilde, .num ['5']], 0) ∧
    split_to_tokens "-5" = .error (.calc .noOperator) := by
  constructor
  · simp [scanTokens, getNumAux, isOpChar]
  · simp [split_to_tokens, scanTokens, getNumAux, isOpChar]

/-- C6 counterexample: a tab character is whitespace but is not stripped
(`replace(' ', '')` removes only spaces), and the scanner rejects it with
`UnexpectedSymbol`, contradicting "whitespace never produces an error". -/
theorem c6_tab_not_stripped :
    split_to_tokens "2+\t3" = .error (.calc (.unexpected '\t')) := by
  simp [split_to_tokens, scanTokens, getNumAux, charToTok, isOpChar]

/-- C8 counterexample: the whitespace-only input `"\t"` does not fail with
`NoOperator`; it fails with `UnexpectedSymbol('\t')`. -/
theorem c8_tab_only_not_nooperator :
    eval_math_expr "\t" = .error (.calc (.unexpected '\t')) ∧
    Failure.calc (.unexpected '\t') ≠ .calc .noOperator := by
  constructor
  · have h : split_to_tokens "\t" = .error (.calc (.unexpected '\t')) := by
      simp [split_to_tokens, scanTokens, getNumAux, charToTok, isOpChar]
    rw [eval_math_expr, h]
  · decide

/-! ## Error shapes of the stages -/

/-- A scanner failure is always `UnexpectedSymbol` at a scanned character:
one that occurs in the input, is no digit and no recognized symbol. -/
theorem scanTokens_error (s : List Char) (prev : Option Char) (acc : List Tok) (ops : Nat)
    (e : Failure) (h : scanTokens s prev acc ops = .error e) :
    ∃ c, e = .calc (.unexpected c) ∧ c ∈ s ∧ c.isDigit = false ∧ isOpChar c = false := by
  induction s, prev, acc, ops using scanTokens.induct generalizing e with
  | case1 prev acc ops =>
    rw [scanTokens_nil] at h
    cases h
  | case2 prev acc ops c rest hdig tail ih =>
    rw [scanTokens_digit c rest prev acc ops hdig] at h
    obtain ⟨c', he, hmem, hd, ho⟩ := ih _ h
    exact ⟨c', he, List.mem_cons_of_mem c (List.drop_subset _ _ hmem), hd, ho⟩
  | case3 prev acc ops c rest hdig hop hcond ih =>
    rw [scanTokens_op c rest prev acc ops (by simpa using hdig) hop, if_pos hcond] at h
    obtain ⟨c', he, hmem, hd, ho⟩ := ih _ h
    exact ⟨c', he, List.mem_cons_of_mem c hmem, hd, ho⟩
  | case4 prev acc ops c rest hdig hop hcond ih =>
    rw [scanTokens_op c rest prev acc ops (by simpa using hdig) hop, if_neg hcond] at h
    obtain ⟨c', he, hmem, hd, ho⟩ := ih _ h
    exact ⟨c', he, List.mem_cons_of_mem c hmem, hd, ho⟩
  | case5 prev acc ops c rest hdig hop =>
    rw [scanTokens_bad c rest prev acc ops (by simpa using hdig) (by simpa using hop)] at h
    simp only [Except.error.injEq] at h
    exact ⟨c, h.symm, List.mem_cons_self c rest, by simpa using hdig, by simpa using hop⟩

/-- A tokenizer failure is `UnexpectedSymbol` at a non-space character, or
`NoOperator`. -/
theorem split_to_tokens_error (s : String) (e : Failure)
    (h : split_to_tokens s = .error e) :
    (∃ c, e = .calc (.unexpected c) ∧ c ≠ ' ') ∨ e = .calc .noOperator := by
  rw [split_to_tokens] at h
  split at h
  · rename_i e' heq
    cases h
    obtain ⟨c, he, hmem, _, _⟩ := scanTokens_error _ _ _ _ _ heq
    refine .inl ⟨c, he, ?_⟩
    have := List.mem_filter.1 hmem
    simpa using this.2
  · split at h
    · cases h
      exact .inr rfl
    · cases h

/-- The validator loop only ever fails with the parentheses error. -/
theorem cpLoop_error (rest : List Tok) (o c : Nat) (e : Failure)
    (h : cpLoop rest o c = .error e) : e = .calc .parenErr := by
  induction rest generalizing o c with
  | nil =>
    rw [cpLoop] at h
    split at h
    · cases h; rfl
    · cases h
  | cons t ts ih =>
    rw [cpLoop] at h
    split at h
    · cases h; rfl
    · exact ih _ _ h

/-- A validator failure is the parentheses error or the IndexError of a
token list shorter than two. -/
theorem check_parentheses_error (tl : List Tok) (e : Failure)
    (h : check_parentheses tl = .error e) :
    e = .calc .parenErr ∨ e = .fault .indexError := by
  match tl with
  | [] => cases h; exact .inr rfl
  | [t] => cases h; exact .inr rfl
  | t0 :: t1 :: rest => exact .inl (cpLoop_error _ _ _ _ h)

/-- The operator branch only fails with the collapsed lookup error. -/
theorem opFold_error (S out : List Tok) (t : Tok) (e : Failure)
    (h : opFold S out t = .error e) : e = .fault .badToken := by
  induction S generalizing out with
  | nil => cases h
  | cons top rest ih =>
    rw [opFold] at h
    split at h
    · split at h
      · exact ih _ h
      · cases h
    · cases h; rfl

/-- A conversion step fails only with IndexError or the lookup error. -/
theorem i2pStep_error (st : List Tok × List Tok) (t : Tok) (e : Failure)
    (h : i2pStep st t = .error e) :
    e = .fault .indexError ∨ e = .fault .badToken := by
  match t with
  | .num [] => cases h; exact .inl rfl
  | .num (c :: cs) =>
    rw [i2pStep] at h
    split at h
    · cases h
    · exact .inr (opFold_error _ _ _ _ h)
  | .lparen => cases h
  | .rparen =>
    rw [i2pStep] at h
    split at h
    · cases h
    · cases h; exact .inl rfl
  | .plus | .minus | .times | .div | .colon | .tilde =>
    exact .inr (opFold_error _ _ _ _ h)

/-- The conversion loop fails only with IndexError or the lookup error. -/
theorem i2pRun_error (ts : List Tok) (st : List Tok × List Tok) (e : Failure)
    (h : i2pRun st ts = .error e) :
    e = .fault .indexError ∨ e = .fault .badToken := by
  induction ts generalizing st with
  | nil => cases h
  | cons t ts ih =>
    rw [i2pRun] at h
    split at h
    · exact ih _ h
    · rename_i heq
      cases h
      exact i2pStep_error _ _ _ heq

/-- The converter fails only with IndexError or the lookup error. -/
theorem toPostfixTokens_error (ts : List Tok) (e : Failure)
    (h : toPostfixTokens ts = .error e) :
    e = .fault .indexError ∨ e = .fault .badToken := by
  rw [toPostfixTokens] at h
  split at h
  · cases h
  · cases h
    exact i2pRun_error _ _ _ (by assumption)

/-- An arithmetic failure is only the fatal division by zero. -/
theorem math_operation_error (a b : Value) (op : Tok) (e : Failure)
    (h : math_operation a b op = .error e) : e = .sysExit := by
  match op with
  | .plus | .minus | .tilde => cases h
  | .colon | .div =>
    rw [math_operation] at h
    split at h
    · cases h; rfl
    · cases h
  | .times | .lparen | .rparen | .num s => cases h

/-- The two-operand branch fails only with the fatal division or an
IndexError. -/
theorem pcBinary_error (stack : List Value) (op : Tok) (e : Failure)
    (h : pcBinary stack op = .error e) :
    e = .sysExit ∨ e = .fault .indexError := by
  match stack with
  | [] => cases h; exact .inr rfl
  | [b] => cases h; exact .inr rfl
  | b :: a :: rest =>
    rw [pcBinary] at h
    split at h
    · cases h
    · rename_i heq
      cases h
      exact .inl (math_operation_error _ _ _ _ heq)

/-- A postfix-evaluation step fails only with the fatal division, an
IndexError, or the ValueError of a malformed literal. -/
theorem pcStep_error (stack : List Value) (t : Tok) (e : Failure)
    (h : pcStep stack t = .error e) :
    e = .sysExit ∨ e = .fault .indexError ∨ e = .fault .valueError := by
  match t with
  | .num [] => cases h; exact .inr (.inl rfl)
  | .num (c :: cs) =>
    rw [pcStep] at h
    split at h
    · split at h
      · cases h
      · cases h; exact .inr (.inr rfl)
    · rcases pcBinary_error _ _ _ h with h1 | h1
      · exact .inl h1
      · exact .inr (.inl h1)
  | .tilde =>
    match stack with
    | [] => cases h; exact .inr (.inl rfl)
    | x :: rest =>
      have h' : (match math_operation (.i 0) x .tilde with
          | .ok r => (.ok (r :: rest) : Except Failure (List Value))
          | .error e' => .error e') = .error e := h
      split at h'
      · cases h'
      · rename_i heq
        cases h'
        exact .inl (math_operation_error _ _ _ _ heq)
  | .plus =>
    rcases pcBinary_error stack Tok.plus e h with h1 | h1
    · exact .inl h1
    · exact .inr (.inl h1)
  | .minus =>
    rcases pcBinary_error stack Tok.minus e h with h1 | h1
    · exact .inl h1
    · exact .inr (.inl h1)
  | .times =>
    rcases pcBinary_error stack Tok.times e h with h1 | h1
    · exact .inl h1
    · exact .inr (.inl h1)
  | .div =>
    rcases pcBinary_error stack Tok.div e h with h1 | h1
    · exact .inl h1
    · exact .inr (.inl h1)
  | .colon =>
    rcases pcBinary_error stack Tok.colon e h with h1 | h1
    · exact .inl h1
    · exact .inr (.inl h1)
  | .lparen =>
    rcases pcBinary_error stack Tok.lparen e h with h1 | h1
    · exact .inl h1
    · exact .inr (.inl h1)
  | .rparen =>
    rcases pcBinary_error stack Tok.rparen e h with h1 | h1
    · exact .inl h1
    · exact .inr (.inl h1)

/-- The postfix evaluation loop inherits the step failures. -/
theorem pcRun_error (ts : List Tok) (stack : List Value) (e : Failure)
    (h : pcRun stack ts = .error e) :
    e = .sysExit ∨ e = .fault .indexError ∨ e = .fault .valueError := by
  induction ts generalizing stack with
  | nil => cases h
  | cons t ts ih =>
    rw [pcRun] at h
    split at h
    · exact ih _ h
    · rename_i heq
      cases h
      exact pcStep_error _ _ _ heq

/-- The postfix evaluator inherits the loop failures. -/
theorem postfix_calc_error (ts : List Tok) (e : Failure)
    (h : postfix_calc ts = .error e) :
    e = .sysExit ∨ e = .fault .indexError ∨ e = .fault .valueError := by
  rw [postfix_calc] at h
  split at h
  · cases h
  · cases h; exact .inr (.inl rfl)
  · cases h
    exact pcRun_error _ _ _ (by assumption)

/-- C8 (amended): the claim fails for whitespace other than spaces, which
is not stripped: every input that is empty or consists only of *space*
characters fails with `NoOperator`, not `EmptyInput`, and the `EmptyInput`
error is never raised on any input whatsoever. -/
theorem c8_no_empty_input :
    (∀ s : String, (∀ c ∈ s.data, c = ' ') → eval_math_expr s = .error (.calc .noOperator)) ∧
    (∀ (s : String) (e : Failure), eval_math_expr s = .error e → e ≠ .calc .emptyInput) := by
  constructor
  · intro s hs
    have hf : s.data.filter (fun c => c ≠ ' ') = [] := by
      rw [List.filter_eq_nil_iff]
      intro a ha
      simp [hs a ha]
    have hsplit : split_to_tokens s = .error (.calc .noOperator) := by
      rw [split_to_tokens, hf, scanTokens_nil]
      rfl
    rw [eval_math_expr, hsplit]
  · intro s e h
    rw [eval_math_expr] at h
    split at h
    · rename_i e' heq
      cases h
      rcases split_to_tokens_error _ _ heq with ⟨c, hce, _⟩ | hne
      · subst hce; intro hx; cases hx
      · subst hne; intro hx; cases hx
    · split at h
      · rename_i heq
        cases h
        rcases check_parentheses_error _ _ heq with h1 | h1 <;>
          (subst h1; intro hx; cases hx)
      · split at h
        · rename_i heq
          cases h
          rcases toPostfixTokens_error _ _ heq with h1 | h1 <;>
            (subst h1; intro hx; cases hx)
        · rcases postfix_calc_error _ _ h with h1 | h1 | h1 <;>
            (subst h1; intro hx; cases hx)

/-- Witness for C8 at the space-only input. -/
theorem c8_no_empty_input_witness :
    eval_math_expr " " = .error (.calc .noOperator) :=
  c8_no_empty_input.1 " " (by decide)

/-- C6 (amended): only *space* characters are stripped before scanning and
they never produce an error (an `UnexpectedSymbol` never carries a space,
and adding or removing spaces does not change tokenization); any scanned
character that is neither a digit nor a recognized operator or parenthesis
fails with `UnexpectedSymbol` carrying exactly that character, so
`evaluate("2^3")` fails with `UnexpectedSymbol('^')`. -/
theorem c6_unexpected_symbol :
    (∀ (s : String) (c : Char),
      split_to_tokens s = .error (.calc (.unexpected c)) → c ≠ ' ') ∧
    (∀ (c : Char) (rest : List Char) (prev : Option Char) (acc : List Tok) (ops : Nat),
      c.isDigit = false → isOpChar c = false →
      scanTokens (c :: rest) prev acc ops = .error (.calc (.unexpected c))) ∧
    (∀ s : String, split_to_tokens s = split_to_tokens (despace s)) ∧
    eval_math_expr "2^3" = .error (.calc (.unexpected '^')) := by
  refine ⟨?_, scanTokens_bad, ?_, ?_⟩
  · intro s c h
    rcases split_to_tokens_error _ _ h with ⟨c', hce, hcs⟩ | hne
    · cases hce
      exact hcs
    · cases hne
  · intro s
    rw [split_to_tokens, split_to_tokens, despace]
    simp [List.filter_filter]
  · have h : split_to_tokens "2^3" = .error (.calc (.unexpected '^')) := by
      simp [split_to_tokens, scanTokens, getNumAux, charToTok, isOpChar]
    rw [eval_math_expr, h]

/-- Witness for C6 at the character `^`. -/
theorem c6_unexpected_symbol_witness :
    scanTokens ['^'] none [] 0 = .error (.calc (.unexpected '^')) :=
  c6_unexpected_symbol.2.1 '^' [] none [] 0 (by decide) (by decide)

/-- The scan's operator count, relative to its argument, equals the number
of binary operator tokens it appends, provided the input has no literal
`~` character (a `-` classified as unary minus contributes a `~` token but
is not counted). -/
theorem scanTokens_binCount (s : List Char) (prev : Option Char) (acc : List Tok)
    (ops : Nat) (tl : List Tok) (n : Nat) (htil : ∀ c ∈ s, c ≠ '~')
    (h : scanTokens s prev acc ops = .ok (tl, n)) :
    n + binCount acc = ops + binCount tl := by
  induction s, prev, acc, ops using scanTokens.induct generalizing tl n with
  | case1 prev acc ops =>
    rw [scanTokens_nil] at h
    simp only [Except.ok.injEq, Prod.mk.injEq] at h
    rw [← h.1, ← h.2]
  | case2 prev acc ops c rest hdig tail ih =>
    rw [scanTokens_digit c rest prev acc ops hdig] at h
    have hsub : ∀ c' ∈ rest.drop (getNumAux rest 0).length, c' ≠ '~' :=
      fun c' hc' => htil c' (List.mem_cons_of_mem c (List.drop_subset _ _ hc'))
    have := ih _ _ hsub h
    simpa [binCount, List.countP_append, isBinOp] using this
  | case3 prev acc ops c rest hdig hop hcond ih =>
    rw [scanTokens_op c rest prev acc ops (by simpa using hdig) hop, if_pos hcond] at h
    have hsub : ∀ c' ∈ rest, c' ≠ '~' :=
      fun c' hc' => htil c' (List.mem_cons_of_mem c hc')
    have := ih _ _ hsub h
    simpa [binCount, List.countP_append, isBinOp] using this
  | case4 prev acc ops c rest hdig hop hcond ih =>
    rw [scanTokens_op c rest prev acc ops (by simpa using hdig) hop, if_neg hcond] at h
    have hsub : ∀ c' ∈ rest, c' ≠ '~' :=
      fun c' hc' => htil c' (List.mem_cons_of_mem c hc')
    have hct : c ≠ '~' := htil c (List.mem_cons_self c rest)
    have := ih _ _ hsub h
    have hops : isOpChar c = true := hop
    simp only [isOpChar, Bool.or_eq_true, decide_eq_true_eq] at hops
    by_cases hpar : c = '(' ∨ c = ')'
    · rw [dif_pos hpar] at this
      rcases hpar with hc | hc <;> subst hc <;>
        simpa [binCount, List.countP_append, isBinOp, charToTok] using this
    · rw [dif_neg hpar] at this
      have hbin : isBinOp (charToTok c) = true := by
        rcases hops with (((((((hc | hc) | hc) | hc) | hc) | hc) | hc) | hc) <;> subst hc <;>
          first
            | exact (hpar (Or.inl rfl)).elim
            | exact (hpar (Or.inr rfl)).elim
            | exact (hct rfl).elim
            | decide
      simp only [binCount, List.countP_append] at this ⊢
      simp [List.countP_cons, List.countP_nil, hbin] at this
      omega
  | case5 prev acc ops c rest hdig hop =>
    rw [scanTokens_bad c rest prev acc ops (by simpa using hdig) (by simpa using hop)] at h
    cases h

/-- C5 (amended): tokenization fails with `NoOperator` exactly when the
scan completes with operator count zero; for inputs with no literal `~`
character that count is the number of *binary* operator tokens found — a
`-` classified as unary minus is not counted.  A bare number such as
`"42"` fails with `NoOperator`, and so does `"-5"` even though its scan
found a unary operator, while `"-5+3"` succeeds. -/
theorem c5_no_operator_characterization :
    (∀ (s : String) (tl : List Tok) (n : Nat),
      scanTokens (s.data.filter (fun c => c ≠ ' ')) none [] 0 = .ok (tl, n) →
      (split_to_tokens s = .error (.calc .noOperator) ↔ n = 0)) ∧
    (∀ (s : List Char) (prev : Option Char) (acc : List Tok) (ops n : Nat) (tl : List Tok),
      (∀ c ∈ s, c ≠ '~') → scanTokens s prev acc ops = .ok (tl, n) →
      n + binCount acc = ops + binCount tl) ∧
    split_to_tokens "42" = .error (.calc .noOperator) ∧
    split_to_tokens "-5" = .error (.calc .noOperator) ∧
    split_to_tokens "-5+3" = .ok [.tilde, .num ['5'], .plus, .num ['3']] := by
  refine ⟨?_, ?_, ?_, c5_unary_not_counted.2, tokens_ex3⟩
  · intro s tl n hscan
    rw [split_to_tokens, hscan]
    by_cases hn : n = 0 <;> simp [hn]
  · intro s prev acc ops n tl htil h
    exact scanTokens_binCount s prev acc ops tl n htil h
  · simp [split_to_tokens, scanTokens, getNumAux]

/-- Witness for C5 at the bare number `"42"`. -/
theorem c5_no_operator_characterization_witness :
    split_to_tokens "42" = .error (.calc .noOperator) ↔ 0 = 0 :=
  c5_no_operator_characterization.1 "42" [.num ['4', '2']] 0
    (by simp [scanTokens, getNumAux])

/-- Witness for C4: the classification equation at the start of an input. -/
theorem c4_unary_minus_classification_witness :
    scanTokens ['-'] none [] 0 =
      if (none : Option Char) = none ∨ (none : Option Char) = some '(' then
        scanTokens [] (some '-') ([] ++ [Tok.tilde]) 0
      else scanTokens [] (some '-') ([] ++ [Tok.minus]) (0 + 1) :=
  c4_unary_minus_classification.1 [] none [] 0

/-- Witness for C9 at a concrete literal and error kind. -/
theorem c9_two_dot_literals_witness :
    (get_number ['1', '.', '2', '.', '3']).count '.' ≤ 2 ∧
    Failure.fault .valueError ≠ .calc .noOperator :=
  ⟨c9_two_dot_literals.1 ['1', '.', '2', '.', '3'],
   c9_two_dot_literals.2.2.2.2 .noOperator⟩

/-- Witness for C10 at a concrete error kind. -/
theorem c10_validator_short_list_witness :
    Failure.fault .indexError ≠ .calc .parenErr :=
  c10_validator_short_list.2.2.2.1 .parenErr

/-! ## The stack invariant of the converter (C2) -/

theorem opensIn_append (l1 l2 : List Tok) :
    opensIn (l1 ++ l2) = opensIn l1 + opensIn l2 := by
  induction l1 with
  | nil => simp [opensIn]
  | cons t ts ih => simp [opensIn, ih]; omega

theorem closesIn_append (l1 l2 : List Tok) :
    closesIn (l1 ++ l2) = closesIn l1 + closesIn l2 := by
  induction l1 with
  | nil => simp [closesIn]
  | cons t ts ih => simp [closesIn, ih]; omega

/-- A positive left-parenthesis count means a left parenthesis occurs. -/
theorem opensIn_pos_mem (S : List Tok) (h : 0 < opensIn S) : Tok.lparen ∈ S := by
  induction S with
  | nil => simp [opensIn] at h
  | cons t ts ih =>
    by_cases ht : t = Tok.lparen
    · subst ht; exact List.mem_cons_self _ _
    · rw [opensIn, if_neg ht] at h
      exact List.mem_cons_of_mem _ (ih (by omega))

/-- Every token with a priority other than `(` has priority at least 2. -/
theorem prior_ge_two (t : Tok) (p : Nat) (hp : prior t = some p)
    (ht : t ≠ .lparen) : 2 ≤ p := by
  cases t <;> simp_all [prior] <;> omega

/-- The operator branch never changes the number of `(` on the stack when
pushing a non-`(` token (it never pops below a `(`). -/
theorem opFold_opensIn (S out : List Tok) (t : Tok) (S' out' : List Tok)
    (h : opFold S out t = .ok (S', out')) (ht : t ≠ .lparen) :
    opensIn S' = opensIn S := by
  induction S generalizing out with
  | nil =>
    simp only [opFold, Except.ok.injEq, Prod.mk.injEq] at h
    rw [← h.1]
    simp [opensIn, ht]
  | cons top rest ih =>
    rw [opFold] at h
    split at h
    · rename_i pt pk hpt hpk
      split at h
      · rename_i hle
        have htop : top ≠ Tok.lparen := by
          intro hc
          subst hc
          have h2 : 2 ≤ pk := prior_ge_two t pk hpk ht
          simp [prior] at hpt
          omega
        rw [ih _ h, opensIn, if_neg htop]
        omega
      · simp only [Except.ok.injEq, Prod.mk.injEq] at h
        rw [← h.1]
        simp [opensIn, ht]
    · cases h

/-- Popping to a `(` removes exactly one `(` from the stack and moves no
`(` onto the output. -/
theorem popUntilLparen_opensIn (S acc popped S₀ : List Tok)
    (h : popUntilLparen S acc = some (popped, S₀)) :
    opensIn S = opensIn S₀ + 1 ∧ opensIn popped = opensIn acc := by
  induction S generalizing acc with
  | nil => cases h
  | cons t rest ih =>
    rw [popUntilLparen] at h
    split at h
    · rename_i hl
      simp only [Option.some.injEq, Prod.mk.injEq] at h
      subst hl
      rw [← h.1, ← h.2]
      simp [opensIn]
      omega
    · rename_i hl
      obtain ⟨h1, h2⟩ := ih _ h
      constructor
      · rw [opensIn, if_neg hl, h1]
        omega
      · rw [h2, opensIn_append, opensIn, opensIn, if_neg hl]
        omega

/-- The pop-to-`(` loop succeeds whenever a `(` is on the stack. -/
theorem popUntilLparen_total (S : List Tok) (hmem : Tok.lparen ∈ S) (acc : List Tok) :
    ∃ r, popUntilLparen S acc = some r := by
  induction S generalizing acc with
  | nil => cases hmem
  | cons t rest ih =>
    by_cases ht : t = Tok.lparen
    · subst ht
      exact ⟨(acc, rest), by rw [popUntilLparen]; simp⟩
    · rw [popUntilLparen, if_neg ht]
      exact ih (by rcases List.mem_cons.1 hmem with h | h; exact absurd h.symm ht; exact h) _

/-- Conversion-step behavior on a digit-headed number token. -/
theorem i2pStep_num_digit (S out : List Tok) (c : Char) (cs : List Char)
    (h : c.isDigit = true) :
    i2pStep (S, out) (.num (c :: cs)) = .ok (S, out ++ [.num (c :: cs)]) := by
  rw [i2pStep]
  simp [h]

/-- Conversion-step behavior on a number token not starting with a digit:
it falls through to the operator branch. -/
theorem i2pStep_num_nondigit (S out : List Tok) (c : Char) (cs : List Char)
    (h : c.isDigit = false) :
    i2pStep (S, out) (.num (c :: cs)) = opFold S out (.num (c :: cs)) := by
  rw [i2pStep]
  simp [h]

/-- The central safety invariant: with every prefix of the remaining tokens
closing no more parentheses than it opens (counting `(` already on the
stack), the conversion loop never raises the IndexError of popping an
empty stack, whatever else happens. -/
theorem i2pRun_no_indexError (ts : List Tok) (S out : List Tok)
    (hbal : ∀ n, closesIn (ts.take n) ≤ opensIn (ts.take n) + opensIn S)
    (hnum : ∀ t ∈ ts, t ≠ .num []) :
    i2pRun (S, out) ts ≠ .error (.fault .indexError) := by
  induction ts generalizing S out with
  | nil =>
    rw [i2pRun]
    intro hc
    cases hc
  | cons t rest ih =>
    have hbal' : ∀ (S' : List Tok), opensIn S' + closesIn [t] = opensIn S + opensIn [t] →
        ∀ n, closesIn (rest.take n) ≤ opensIn (rest.take n) + opensIn S' := by
      intro S' hS' n
      have := hbal (n + 1)
      rw [List.take_succ_cons, closesIn, opensIn] at this
      simp only [closesIn, opensIn] at hS'
      omega
    have hnum' : ∀ t' ∈ rest, t' ≠ .num [] := fun t' ht' => hnum t' (List.mem_cons_of_mem _ ht')
    have hopcase : ∀ t' : Tok, t' ≠ .lparen → i2pStep (S, out) t' = opFold S out t' →
        closesIn [t] = opensIn [t] →
        (match i2pStep (S, out) t' with
          | .ok st' => i2pRun st' rest
          | .error e => .error e) ≠ Except.error (.fault .indexError) := by
      intro t' hne hstep hz
      rw [hstep]
      cases hfold : opFold S out t' with
      | ok st' =>
        obtain ⟨S', out'⟩ := st'
        refine ih S' out' (hbal' S' ?_) hnum'
        rw [opFold_opensIn S out t' S' out' hfold hne]
        omega
      | error e =>
        intro hc
        cases hc
        have := opFold_error _ _ _ _ hfold
        cases this
    rw [i2pRun]
    cases t with
    | num s =>
      cases s with
      | nil => exact absurd rfl (hnum _ (List.mem_cons_self _ _))
      | cons c cs =>
        by_cases hdig : c.isDigit
        · rw [i2pStep_num_digit S out c cs hdig]
          exact ih _ _ (hbal' S (by simp [opensIn, closesIn])) hnum'
        · exact hopcase (.num (c :: cs)) (by intro hc; cases hc)
            (i2pStep_num_nondigit S out c cs (by simpa using hdig)) (by simp [closesIn, opensIn])
    | lparen =>
      have hstep : i2pStep (S, out) .lparen = .ok (.lparen :: S, out) := rfl
      rw [hstep]
      exact ih _ _ (hbal' (Tok.lparen :: S) (by simp [opensIn, closesIn]; omega)) hnum'
    | rparen =>
      have hopen : 0 < opensIn S := by
        have := hbal 1
        simp [List.take_succ_cons, closesIn, opensIn] at this
        omega
      obtain ⟨⟨popped, S₀⟩, hpop⟩ := popUntilLparen_total S (opensIn_pos_mem S hopen) []
      have hstep : i2pStep (S, out) .rparen = .ok (S₀, out ++ popped) := by
        rw [i2pStep]
        rw [hpop]
      rw [hstep]
      have hcount := (popUntilLparen_opensIn S [] popped S₀ hpop).1
      exact ih _ _ (hbal' S₀ (by simp [opensIn, closesIn]; omega)) hnum'
    | plus => exact hopcase .plus (by intro hc; cases hc) rfl (by decide)
    | minus => exact hopcase .minus (by intro hc; cases hc) rfl (by decide)
    | times => exact hopcase .times (by intro hc; cases hc) rfl (by decide)
    | div => exact hopcase .div (by intro hc; cases hc) rfl (by decide)
    | colon => exact hopcase .colon (by intro hc; cases hc) rfl (by decide)
    | tilde => exact hopcase .tilde (by intro hc; cases hc) rfl (by decide)

/-- C2 (amended): the Validator's acceptance is not enough (its incremental
check skips the first two tokens — see the counterexample `) (`); the
invariant that actually holds is: on every token sequence in which no
prefix closes more parentheses than it opens (and with no empty number
token, which the tokenizer cannot produce), the converter never pops from
an empty operator stack while handling a right parenthesis — that
IndexError is unreachable. -/
theorem c2_no_empty_pop_on_balanced :
    ∀ tl : List Tok,
      (∀ n, closesIn (tl.take n) ≤ opensIn (tl.take n)) →
      (∀ t ∈ tl, t ≠ .num []) →
      toPostfixTokens tl ≠ .error (.fault .indexError) := by
  intro tl hbal hnum hc
  rw [toPostfixTokens] at hc
  split at hc
  · cases hc
  · cases hc
    refine i2pRun_no_indexError tl [] [] (fun n => ?_) hnum (by assumption)
    simpa [opensIn] using hbal n

/-- Witness for C2 at the balanced sequence `( )`. -/
theorem c2_no_empty_pop_on_balanced_witness :
    toPostfixTokens [.lparen, .rparen] ≠ .error (.fault .indexError) :=
  c2_no_empty_pop_on_balanced [.lparen, .rparen]
    (by
      intro n
      match n with
      | 0 => decide
      | 1 => decide
      | n + 2 =>
        rw [List.take_of_length_le (by simp)]
        decide)
    (by decide)

/-! ## Composition and stack lemmas for the C1 proof -/

/-- Running the conversion loop over a concatenation, given the first part
succeeds. -/
theorem i2pRun_append_ok (l1 l2 : List Tok) (st st₁ : List Tok × List Tok)
    (h : i2pRun st l1 = .ok st₁) :
    i2pRun st (l1 ++ l2) = i2pRun st₁ l2 := by
  induction l1 generalizing st with
  | nil =>
    rw [i2pRun] at h
    cases h
    rw [List.nil_append]
  | cons t ts ih =>
    rw [i2pRun] at h
    rw [List.cons_append, i2pRun]
    cases hs : i2pStep st t with
    | ok st' =>
      rw [hs] at h
      exact ih _ h
    | error e =>
      rw [hs] at h
      cases h

/-- Running the postfix evaluation loop over a concatenation, given the
first part succeeds. -/
theorem pcRun_append_ok (l1 l2 : List Tok) (st st₁ : List Value)
    (h : pcRun st l1 = .ok st₁) :
    pcRun st (l1 ++ l2) = pcRun st₁ l2 := by
  induction l1 generalizing st with
  | nil =>
    rw [pcRun] at h
    cases h
    rw [List.nil_append]
  | cons t ts ih =>
    rw [pcRun] at h
    rw [List.cons_append, pcRun]
    cases hs : pcStep st t with
    | ok st' =>
      rw [hs] at h
      exact ih _ h
    | error e =>
      rw [hs] at h
      cases h

/-- A pending list of high-priority operators is fully popped by an
incoming operator of priority `pk ≥ 2` whose pop loop then stops at the
blocked stack below, and the operator is pushed. -/
theorem opFold_pops (t : Tok) (pk : Nat) (hpk : prior t = some pk) (h2 : 2 ≤ pk) :
    ∀ (pend : List Tok), PendGE pk pend → ∀ (S out : List Tok), BlockedLT pk S →
      opFold (pend ++ S) out t = .ok (t :: S, out ++ pend) := by
  intro pend
  induction pend with
  | nil =>
    intro _ S out hS
    cases S with
    | nil => simp [opFold]
    | cons q S' =>
      obtain ⟨pq, hpq, hlt⟩ := hS
      rw [List.nil_append, opFold]
      simp only [hpq, hpk]
      rw [if_neg (by omega)]
      simp
  | cons q pend' ih =>
    intro hpend S out hS
    obtain ⟨pq, hpq, hge⟩ := hpend q (List.mem_cons_self _ _)
    have hpend' : PendGE pk pend' := fun r hr => hpend r (List.mem_cons_of_mem _ hr)
    rw [List.cons_append, opFold]
    simp only [hpq, hpk]
    rw [if_pos hge, ih hpend' S (out ++ [q]) hS]
    simp

/-- The right-parenthesis pop loop removes exactly a pending block of
operators (none of which is a `(`) and the `(` below it. -/
theorem popUntilLparen_pends :
    ∀ (pend : List Tok), PendGE 2 pend → ∀ (S acc : List Tok),
      popUntilLparen (pend ++ .lparen :: S) acc = some (acc ++ pend, S) := by
  intro pend
  induction pend with
  | nil =>
    intro _ S acc
    rw [List.nil_append, popUntilLparen]
    simp
  | cons q pend' ih =>
    intro hpend S acc
    obtain ⟨pq, hpq, hge⟩ := hpend q (List.mem_cons_self _ _)
    have hq : ¬(q = Tok.lparen) := by
      intro hc
      subst hc
      simp [prior] at hpq
      omega
    rw [List.cons_append, popUntilLparen, if_neg hq,
      ih (fun r hr => hpend r (List.mem_cons_of_mem _ hr)) S (acc ++ [q])]
    simp

/-- Blocking is monotone in the priority bound. -/
theorem BlockedLT_mono (j k : Nat) (hjk : j ≤ k) (S : List Tok)
    (hS : BlockedLT j S) : BlockedLT k S := by
  cases S with
  | nil => trivial
  | cons q S' =>
    obtain ⟨pq, h1, h2⟩ := hS
    exact ⟨pq, h1, by omega⟩

/-- A pending bound weakens downwards. -/
theorem PendGE_mono (j k : Nat) (hjk : j ≤ k) (pend : List Tok)
    (hp : PendGE k pend) : PendGE j pend := by
  intro q hq
  obtain ⟨pq, h1, h2⟩ := hp q hq
  exact ⟨pq, h1, by omega⟩

/-- A pending block contains no `(`. -/
theorem PendGE_opensIn (pend : List Tok) (hp : PendGE 2 pend) :
    opensIn pend = 0 := by
  induction pend with
  | nil => rfl
  | cons q rest ih =>
    obtain ⟨pq, hpq, hge⟩ := hp q (List.mem_cons_self _ _)
    have hq : ¬(q = Tok.lparen) := by
      intro hc
      subst hc
      simp [prior] at hpq
      omega
    rw [opensIn, if_neg hq, ih (fun r hr => hp r (List.mem_cons_of_mem _ hr))]

/-- Evaluating the postfix rendering of a well-formed tree pushes exactly
its value onto any stack (the stack-machine half of C1). -/
theorem pcRun_postA :
    ∀ (ast : AExp) (v : Value), wfA ast = true → evalA ast = some v →
      ∀ st : List Value, pcRun st (postA ast) = .ok (v :: st) := by
  intro ast
  induction ast with
  | num s =>
    intro v hwf hev st
    cases s with
    | nil => cases hwf
    | cons c cs =>
      rw [evalA] at hev
      have hstep : pcStep st (.num (c :: cs)) = .ok (v :: st) := by
        rw [pcStep]
        simp only [wfA] at hwf
        rw [if_pos hwf, hev]
      rw [postA, pcRun, hstep]
      rfl
  | neg e ihe =>
    intro v hwf hev st
    rw [evalA] at hev
    cases hx : evalA e with
    | none => rw [hx] at hev; cases hev
    | some x =>
      rw [hx] at hev
      simp only [Option.some.injEq] at hev
      subst hev
      have h1 := ihe x (by simpa [wfA] using hwf) hx st
      rw [postA, pcRun_append_ok _ _ _ _ h1]
      rfl
  | add a b iha ihb =>
    intro v hwf hev st
    rw [evalA] at hev
    simp only [wfA, Bool.and_eq_true] at hwf
    cases hx : evalA a with
    | none => rw [hx] at hev; cases hev
    | some x =>
      rw [hx] at hev
      cases hy : evalA b with
      | none => rw [hy] at hev; cases hev
      | some y =>
        rw [hy] at hev
        simp only [Option.some.injEq] at hev
        subst hev
        have h1 := iha x hwf.1 hx st
        have h2 := ihb y hwf.2 hy (x :: st)
        rw [postA, List.append_assoc, pcRun_append_ok _ _ _ _ h1,
          pcRun_append_ok _ _ _ _ h2]
        rfl
  | sub a b iha ihb =>
    intro v hwf hev st
    rw [evalA] at hev
    simp only [wfA, Bool.and_eq_true] at hwf
    cases hx : evalA a with
    | none => rw [hx] at hev; cases hev
    | some x =>
      rw [hx] at hev
      cases hy : evalA b with
      | none => rw [hy] at hev; cases hev
      | some y =>
        rw [hy] at hev
        simp only [Option.some.injEq] at hev
        subst hev
        have h1 := iha x hwf.1 hx st
        have h2 := ihb y hwf.2 hy (x :: st)
        rw [postA, List.append_assoc, pcRun_append_ok _ _ _ _ h1,
          pcRun_append_ok _ _ _ _ h2]
        rfl
  | mul a b iha ihb =>
    intro v hwf hev st
    rw [evalA] at hev
    simp only [wfA, Bool.and_eq_true] at hwf
    cases hx : evalA a with
    | none => rw [hx] at hev; cases hev
    | some x =>
      rw [hx] at hev
      cases hy : evalA b with
      | none => rw [hy] at hev; cases hev
      | some y =>
        rw [hy] at hev
        simp only [Option.some.injEq] at hev
        subst hev
        have h1 := iha x hwf.1 hx st
        have h2 := ihb y hwf.2 hy (x :: st)
        rw [postA, List.append_assoc, pcRun_append_ok _ _ _ _ h1,
          pcRun_append_ok _ _ _ _ h2]
        rfl
  | dvd a b iha ihb =>
    intro v hwf hev st
    rw [evalA] at hev
    simp only [wfA, Bool.and_eq_true] at hwf
    cases hx : evalA a with
    | none => rw [hx] at hev; cases hev
    | some x =>
      rw [hx] at hev
      cases hy : evalA b with
      | none => rw [hy] at hev; cases hev
      | some y =>
        rw [hy] at hev
        have hev' : (if vIsZero y = true then none
            else some (Value.f (vRat x / vRat y))) = some v := hev
        by_cases hz : vIsZero y
        · rw [if_pos hz] at hev'
          cases hev'
        · rw [if_neg hz] at hev'
          simp only [Option.some.injEq] at hev'
          subst hev'

          have h1 := iha x hwf.1 hx st
          have h2 := ihb y hwf.2 hy (x :: st)
          rw [postA, List.append_assoc, pcRun_append_ok _ _ _ _ h1,
            pcRun_append_ok _ _ _ _ h2, pcRun]
          have hstep : pcStep (y :: x :: st) Tok.div =
              .ok (Value.f (vRat x / vRat y) :: st) := by
            show pcBinary (y :: x :: st) Tok.div = _
            rw [pcBinary, math_operation, if_neg (by simpa using hz)]
          rw [hstep]
          rfl

/-! ## Small parser and stack facts feeding the soundness induction -/

theorem wfA_num (s : List Char) : wfA (.num s) = wfTok (.num s) := by
  cases s <;> rfl

theorem parseP_nil (fuel : Nat) : parseP fuel [] = none := by
  cases fuel <;> rfl

theorem parseP_other (n : Nat) (t : Tok) (ts' : List Tok)
    (h1 : ∀ s, t ≠ .num s) (h2 : t ≠ .lparen) :
    parseP (n + 1) (t :: ts') = none := by
  cases t <;> first | rfl | exact absurd rfl (h1 _) | exact absurd rfl h2

theorem parseU_eq_parseP (n : Nat) (ts : List Tok)
    (h : ∀ r, ts ≠ Tok.tilde :: r) : parseU (n + 1) ts = parseP n ts := by
  cases ts with
  | nil => rfl
  | cons t ts' => cases t <;> first | rfl | exact absurd rfl (h ts')

theorem parseTLoop_stop (n : Nat) (acc : AExp) (tk : Tok) (ts' : List Tok)
    (h1 : tk ≠ .times) (h2 : tk ≠ .div) :
    parseTLoop (n + 1) acc (tk :: ts') = some (acc, tk :: ts') := by
  cases tk <;> first | rfl | exact absurd rfl h1 | exact absurd rfl h2

theorem parseELoop_stop (n : Nat) (acc : AExp) (tk : Tok) (ts' : List Tok)
    (h1 : tk ≠ .plus) (h2 : tk ≠ .minus) :
    parseELoop (n + 1) acc (tk :: ts') = some (acc, tk :: ts') := by
  cases tk <;> first | rfl | exact absurd rfl h1 | exact absurd rfl h2

theorem PendGE_nil (k : Nat) : PendGE k [] :=
  fun q hq => absurd hq (List.not_mem_nil q)

theorem PendGE_single (t : Tok) (pk k : Nat) (hp : prior t = some pk) (h : k ≤ pk) :
    PendGE k [t] := by
  intro q hq
  simp at hq
  subst hq
  exact ⟨pk, hp, h⟩

theorem PendGE_append (k : Nat) (l1 l2 : List Tok)
    (h1 : PendGE k l1) (h2 : PendGE k l2) : PendGE k (l1 ++ l2) := by
  intro q hq
  rcases List.mem_append.1 hq with h | h
  · exact h1 q h
  · exact h2 q h

/-- A conversion step on a plain operator token is the operator branch. -/
theorem i2pStep_op (S out : List Tok) (t : Tok)
    (hnum : ∀ s, t ≠ .num s) (hl : t ≠ .lparen) (hr : t ≠ .rparen) :
    i2pStep (S, out) t = opFold S out t := by
  cases t <;> first
    | rfl
    | exact absurd rfl (hnum _)
    | exact absurd rfl hl
    | exact absurd rfl hr

/-- Processing one operator token from a state whose stack is a pending
block over a blocked remainder: the block is flushed to the output and the
operator pushed. -/
theorem i2pRun_op_push (t : Tok) (pk : Nat) (hpk : prior t = some pk) (h2 : 2 ≤ pk)
    (hnum : ∀ s, t ≠ .num s) (hl : t ≠ .lparen) (hr : t ≠ .rparen)
    (pend S out : List Tok) (hpend : PendGE pk pend) (hS : BlockedLT pk S)
    (l : List Tok) :
    i2pRun (pend ++ S, out) (t :: l) = i2pRun (t :: S, out ++ pend) l := by
  rw [i2pRun, i2pStep_op _ _ _ hnum hl hr,
    opFold_pops t pk hpk h2 pend hpend S out hS]

/-- A conversion step on `)` over a pending block sitting on an explicit
`(`: the block moves to the output and the `(` is discarded. -/
theorem i2pStep_rparen_pends (S out pend : List Tok) (hpend : PendGE 2 pend) :
    i2pStep (pend ++ .lparen :: S, out) .rparen = .ok (S, out ++ pend) := by
  show (match popUntilLparen (pend ++ Tok.lparen :: S) [] with
    | some (popped, rest) => (Except.ok (rest, out ++ popped) : Except Failure _)
    | none => .error (.fault .indexError)) = _
  rw [popUntilLparen_pends pend hpend S []]
  rfl

/-! ## Soundness of the conversion relative to the reference parser -/

theorem parse_sound : ∀ fuel : Nat,
    StmtP fuel ∧ StmtU fuel ∧ StmtTLoop fuel ∧ StmtT1 fuel ∧ StmtT fuel ∧
    StmtELoop fuel ∧ StmtE fuel := by
  intro fuel
  induction fuel with
  | zero =>
    refine ⟨?_, ?_, ?_, ?_, ?_, ?_, ?_⟩
    · intro ts p rest h _
      cases h
    · intro ts u rest h _
      cases h
    · intro ts acc t rest h _
      cases h
    · intro ts t rest h _
      cases h
    · intro ts t rest h _
      cases h
    · intro ts acc e rest h _
      cases h
    · intro ts e rest h _
      cases h
  | succ n ih =>
    obtain ⟨ihP, ihU, ihTL, ihT1, ihT, ihEL, ihE⟩ := ih
    have hP : StmtP (n + 1) := by
      intro ts p rest h hwf
      cases ts with
      | nil => rw [parseP_nil] at h; cases h
      | cons tk ts' =>
        by_cases hnum : ∃ s, tk = Tok.num s
        · obtain ⟨s, rfl⟩ := hnum
          have h' : some (AExp.num s, ts') = some (p, rest) := h
          simp only [Option.some.injEq, Prod.mk.injEq] at h'
          obtain ⟨h1, h2⟩ := h'
          subst h1; subst h2
          have hwfs : wfTok (Tok.num s) = true := hwf _ (List.mem_cons_self _ _)
          refine ⟨[Tok.num s], by simp, by rw [wfA_num]; exact hwfs, ?_⟩
          intro S out
          cases s with
          | nil => cases hwfs
          | cons c cs =>
            rw [i2pRun, i2pStep_num_digit S out c cs (by simpa [wfTok] using hwfs)]
            rfl
        · by_cases hlp : tk = Tok.lparen
          · subst hlp
            have h' : (match parseE n ts' with
              | some (e, Tok.rparen :: r) => some (e, r)
              | _ => none) = some (p, rest) := h
            cases hE : parseE n ts' with
            | none =>
              rw [hE] at h'
              cases h'
            | some pr =>
              obtain ⟨e, r₀⟩ := pr
              rw [hE] at h'
              cases r₀ with
              | nil => cases h'
              | cons tk2 r =>
                cases tk2 <;> cases h'
                obtain ⟨preE, hpreE, hwfe, hrunE⟩ :=
                  ihE _ _ _ hE (fun t ht => hwf t (List.mem_cons_of_mem _ ht))
                refine ⟨Tok.lparen :: preE ++ [Tok.rparen],
                  by rw [hpreE]; simp, hwfe, ?_⟩
                intro S out
                have hstep : i2pStep (S, out) Tok.lparen = .ok (Tok.lparen :: S, out) := rfl
                rw [List.cons_append, i2pRun, hstep]
                show i2pRun (Tok.lparen :: S, out) (preE ++ [Tok.rparen]) = _
                obtain ⟨pend, w, hpost, hpend, hrE⟩ :=
                  hrunE (Tok.lparen :: S) out ⟨1, rfl, by omega⟩
                rw [i2pRun_append_ok _ _ _ _ hrE, i2pRun,
                  i2pStep_rparen_pends S (out ++ w) pend hpend, hpost]
                simp [List.append_assoc, i2pRun]
          · rw [parseP_other n tk ts' (fun s hs => hnum ⟨s, hs⟩) hlp] at h
            cases h
    have hU : StmtU (n + 1) := by
      intro ts u rest h hwf
      by_cases hts : ∃ r, ts = Tok.tilde :: r
      · obtain ⟨rest₀, rfl⟩ := hts
        have h' : (match parseP n rest₀ with
          | some (p, r) => some (AExp.neg p, r)
          | none => none) = some (u, rest) := h
        cases hp : parseP n rest₀ with
        | none => rw [hp] at h'; cases h'
        | some pr =>
          obtain ⟨p, r⟩ := pr
          rw [hp] at h'
          simp only [Option.some.injEq, Prod.mk.injEq] at h'
          obtain ⟨h1, h2⟩ := h'
          subst h1; subst h2
          obtain ⟨preP, hpreP, hwfp, hrunP⟩ :=
            ihP _ _ _ hp (fun t ht => hwf t (List.mem_cons_of_mem _ ht))
          refine ⟨Tok.tilde :: preP, by simp [hpreP], by simpa [wfA] using hwfp, ?_⟩
          intro S out hS
          refine ⟨[Tok.tilde], postA p, by rw [postA],
            PendGE_single _ 4 3 rfl (by omega), ?_⟩
          have hpush := i2pRun_op_push Tok.tilde 4 rfl (by omega)
            (fun s hc => by cases hc) (fun hc => by cases hc) (fun hc => by cases hc)
            [] S out (PendGE_nil 4) (BlockedLT_mono 3 4 (by omega) S hS) preP
          simp only [List.nil_append, List.append_nil] at hpush
          rw [hpush]
          exact hrunP (Tok.tilde :: S) out
      · rw [parseU_eq_parseP n ts (fun r hr => hts ⟨r, hr⟩)] at h
        obtain ⟨pre, hpre, hwfp, hrun⟩ := ihP _ _ _ h hwf
        refine ⟨pre, hpre, hwfp, ?_⟩
        intro S out hS
        refine ⟨[], postA u, by simp, PendGE_nil 3, ?_⟩
        exact hrun S out
    have hTL : StmtTLoop (n + 1) := by
      intro ts acc t rest h hwf
      cases ts with
      | nil =>
        have h' : some (acc, ([] : List Tok)) = some (t, rest) := h
        simp only [Option.some.injEq, Prod.mk.injEq] at h'
        obtain ⟨h1, h2⟩ := h'
        subst h1; subst h2
        refine ⟨[], by simp, fun hx => hx, ?_⟩
        intro S out pend w hS hpend hpost
        exact ⟨pend, w, hpost, hpend, by rw [i2pRun]⟩
      | cons tk ts' =>
        by_cases htimes : tk = Tok.times
        · subst htimes
          have h' : (match parseP n ts' with
            | some (f, r) => parseTLoop n (.mul acc f) r
            | none => none) = some (t, rest) := h
          cases hp : parseP n ts' with
          | none => rw [hp] at h'; cases h'
          | some fr =>
            obtain ⟨f, r⟩ := fr
            rw [hp] at h'
            obtain ⟨preF, hpreF, hwff, hrunF⟩ :=
              ihP _ _ _ hp (fun t' ht' => hwf t' (List.mem_cons_of_mem _ ht'))
            have hwfr : ∀ t' ∈ r, wfTok t' = true := by
              intro t' ht'
              exact hwf t' (List.mem_cons_of_mem _
                (hpreF ▸ List.mem_append.2 (.inr ht')))
            obtain ⟨preL, hpreL, hwft, hrunL⟩ := ihTL _ _ _ _ h' hwfr
            refine ⟨Tok.times :: preF ++ preL,
              by rw [hpreF, hpreL]; simp, fun hacc => hwft (by simp [wfA, hacc, hwff]), ?_⟩
            intro S out pend w hS hpend hpost
            obtain ⟨pend', w', hpost', hpend', hrL⟩ :=
              hrunL S out [Tok.times] ((w ++ pend) ++ postA f) hS
                (PendGE_single _ 3 3 rfl (le_refl 3))
                (by rw [postA, hpost])
            refine ⟨pend', w', hpost', hpend', ?_⟩
            have hpush := i2pRun_op_push Tok.times 3 rfl (by omega)
              (fun s hc => by cases hc) (fun hc => by cases hc) (fun hc => by cases hc)
              pend S (out ++ w) hpend hS (preF ++ preL)
            rw [List.cons_append, hpush,
              i2pRun_append_ok _ _ _ _ (hrunF (Tok.times :: S) ((out ++ w) ++ pend))]
            simp only [List.append_assoc, List.singleton_append] at hrL ⊢
            exact hrL
        · by_cases hdiv : tk = Tok.div
          · subst hdiv
            have h' : (match parseP n ts' with
              | some (f, r) => parseTLoop n (.dvd acc f) r
              | none => none) = some (t, rest) := h
            cases hp : parseP n ts' with
            | none => rw [hp] at h'; cases h'
            | some fr =>
              obtain ⟨f, r⟩ := fr
              rw [hp] at h'
              obtain ⟨preF, hpreF, hwff, hrunF⟩ :=
                ihP _ _ _ hp (fun t' ht' => hwf t' (List.mem_cons_of_mem _ ht'))
              have hwfr : ∀ t' ∈ r, wfTok t' = true := by
                intro t' ht'
                exact hwf t' (List.mem_cons_of_mem _
                  (hpreF ▸ List.mem_append.2 (.inr ht')))
              obtain ⟨preL, hpreL, hwft, hrunL⟩ := ihTL _ _ _ _ h' hwfr
              refine ⟨Tok.div :: preF ++ preL,
                by rw [hpreF, hpreL]; simp, fun hacc => hwft (by simp [wfA, hacc, hwff]), ?_⟩
              intro S out pend w hS hpend hpost
              obtain ⟨pend', w', hpost', hpend', hrL⟩ :=
                hrunL S out [Tok.div] ((w ++ pend) ++ postA f) hS
                  (PendGE_single _ 3 3 rfl (le_refl 3))
                  (by rw [postA, hpost])
              refine ⟨pend', w', hpost', hpend', ?_⟩
              have hpush := i2pRun_op_push Tok.div 3 rfl (by omega)
                (fun s hc => by cases hc) (fun hc => by cases hc) (fun hc => by cases hc)
                pend S (out ++ w) hpend hS (preF ++ preL)
              rw [List.cons_append, hpush,
                i2pRun_append_ok _ _ _ _ (hrunF (Tok.div :: S) ((out ++ w) ++ pend))]
              simp only [List.append_assoc, List.singleton_append] at hrL ⊢
              exact hrL
          · rw [parseTLoop_stop n acc tk ts' htimes hdiv] at h
            simp only [Option.some.injEq, Prod.mk.injEq] at h
            obtain ⟨h1, h2⟩ := h
            subst h1; subst h2
            refine ⟨[], by simp, fun hx => hx, ?_⟩
            intro S out pend w hS hpend hpost
            exact ⟨pend, w, hpost, hpend, by rw [i2pRun]⟩
    have hT1 : StmtT1 (n + 1) := by
      intro ts t rest h hwf
      have h' : (match parseU n ts with
        | some (u, r) => parseTLoop n u r
        | none => none) = some (t, rest) := h
      cases hu : parseU n ts with
      | none => rw [hu] at h'; cases h'
      | some ur =>
        obtain ⟨u, r₀⟩ := ur
        rw [hu] at h'
        obtain ⟨preU, hpreU, hwfu, hrunU⟩ := ihU _ _ _ hu hwf
        have hwfr : ∀ t' ∈ r₀, wfTok t' = true := by
          intro t' ht'
          exact hwf t' (hpreU ▸ List.mem_append.2 (.inr ht'))
        obtain ⟨preL, hpreL, hwft, hrunL⟩ := ihTL _ _ _ _ h' hwfr
        refine ⟨preU ++ preL, by rw [hpreU, hpreL, List.append_assoc], hwft hwfu, ?_⟩
        intro S out hS
        obtain ⟨pendU, wU, hpostU, hpendU, hrU⟩ := hrunU S out hS
        obtain ⟨pend', w', hpost', hpend', hrL⟩ :=
          hrunL S out pendU wU hS hpendU hpostU
        exact ⟨pend', w', hpost', hpend',
          by rw [i2pRun_append_ok _ _ _ _ hrU]; exact hrL⟩
    have hT : StmtT (n + 1) := by
      intro ts t rest h hwf
      have h' : (match parseP n ts with
        | some (f, r) => parseTLoop n f r
        | none => none) = some (t, rest) := h
      cases hp : parseP n ts with
      | none => rw [hp] at h'; cases h'
      | some fr =>
        obtain ⟨f, r₀⟩ := fr
        rw [hp] at h'
        obtain ⟨preF, hpreF, hwff, hrunF⟩ := ihP _ _ _ hp hwf
        have hwfr : ∀ t' ∈ r₀, wfTok t' = true := by
          intro t' ht'
          exact hwf t' (hpreF ▸ List.mem_append.2 (.inr ht'))
        obtain ⟨preL, hpreL, hwft, hrunL⟩ := ihTL _ _ _ _ h' hwfr
        refine ⟨preF ++ preL, by rw [hpreF, hpreL, List.append_assoc], hwft hwff, ?_⟩
        intro S out hS
        obtain ⟨pend', w', hpost', hpend', hrL⟩ :=
          hrunL S out [] (postA f) hS (PendGE_nil 3) (by simp)
        refine ⟨pend', w', hpost', hpend', ?_⟩
        rw [i2pRun_append_ok _ _ _ _ (hrunF S out)]
        simp only [List.nil_append] at hrL
        exact hrL
    have hEL : StmtELoop (n + 1) := by
      intro ts acc e rest h hwf
      cases ts with
      | nil =>
        have h' : some (acc, ([] : List Tok)) = some (e, rest) := h
        simp only [Option.some.injEq, Prod.mk.injEq] at h'
        obtain ⟨h1, h2⟩ := h'
        subst h1; subst h2
        refine ⟨[], by simp, fun hx => hx, ?_⟩
        intro S out pend w hS hpend hpost
        exact ⟨pend, w, hpost, hpend, by rw [i2pRun]⟩
      | cons tk ts' =>
        by_cases hplus : tk = Tok.plus
        · subst hplus
          have h' : (match parseT n ts' with
            | some (tm, r) => parseELoop n (.add acc tm) r
            | none => none) = some (e, rest) := h
          cases hp : parseT n ts' with
          | none => rw [hp] at h'; cases h'
          | some tr =>
            obtain ⟨tm, r⟩ := tr
            rw [hp] at h'
            obtain ⟨preT, hpreT, hwftm, hrunT⟩ :=
              ihT _ _ _ hp (fun t' ht' => hwf t' (List.mem_cons_of_mem _ ht'))
            have hwfr : ∀ t' ∈ r, wfTok t' = true := by
              intro t' ht'
              exact hwf t' (List.mem_cons_of_mem _
                (hpreT ▸ List.mem_append.2 (.inr ht')))
            obtain ⟨preL, hpreL, hwfe, hrunL⟩ := ihEL _ _ _ _ h' hwfr
            refine ⟨Tok.plus :: preT ++ preL,
              by rw [hpreT, hpreL]; simp, fun hacc => hwfe (by simp [wfA, hacc, hwftm]), ?_⟩
            intro S out pend w hS hpend hpost
            obtain ⟨pendT, wT, hpostT, hpendT, hrT⟩ :=
              hrunT (Tok.plus :: S) ((out ++ w) ++ pend) ⟨2, rfl, by omega⟩
            obtain ⟨pend', w', hpost', hpend', hrL⟩ :=
              hrunL S out (pendT ++ [Tok.plus]) ((w ++ pend) ++ wT) hS
                (PendGE_append 2 _ _ (PendGE_mono 2 3 (by omega) _ hpendT)
                  (PendGE_single _ 2 2 rfl (le_refl 2)))
                (by rw [postA, hpost, hpostT]; simp [List.append_assoc])
            refine ⟨pend', w', hpost', hpend', ?_⟩
            have hpush := i2pRun_op_push Tok.plus 2 rfl (le_refl 2)
              (fun s hc => by cases hc) (fun hc => by cases hc) (fun hc => by cases hc)
              pend S (out ++ w) hpend hS (preT ++ preL)
            rw [List.cons_append, hpush, i2pRun_append_ok _ _ _ _ hrT]
            simp only [List.append_assoc, List.singleton_append] at hrL ⊢
            exact hrL
        · by_cases hminus : tk = Tok.minus
          · subst hminus
            have h' : (match parseT n ts' with
              | some (tm, r) => parseELoop n (.sub acc tm) r
              | none => none) = some (e, rest) := h
            cases hp : parseT n ts' with
            | none => rw [hp] at h'; cases h'
            | some tr =>
              obtain ⟨tm, r⟩ := tr
              rw [hp] at h'
              obtain ⟨preT, hpreT, hwftm, hrunT⟩ :=
                ihT _ _ _ hp (fun t' ht' => hwf t' (List.mem_cons_of_mem _ ht'))
              have hwfr : ∀ t' ∈ r, wfTok t' = true := by
                intro t' ht'
                exact hwf t' (List.mem_cons_of_mem _
                  (hpreT ▸ List.mem_append.2 (.inr ht')))
              obtain ⟨preL, hpreL, hwfe, hrunL⟩ := ihEL _ _ _ _ h' hwfr
              refine ⟨Tok.minus :: preT ++ preL,
                by rw [hpreT, hpreL]; simp, fun hacc => hwfe (by simp [wfA, hacc, hwftm]), ?_⟩
              intro S out pend w hS hpend hpost
              obtain ⟨pendT, wT, hpostT, hpendT, hrT⟩ :=
                hrunT (Tok.minus :: S) ((out ++ w) ++ pend) ⟨2, rfl, by omega⟩
              obtain ⟨pend', w', hpost', hpend', hrL⟩ :=
                hrunL S out (pendT ++ [Tok.minus]) ((w ++ pend) ++ wT) hS
                  (PendGE_append 2 _ _ (PendGE_mono 2 3 (by omega) _ hpendT)
                    (PendGE_single _ 2 2 rfl (le_refl 2)))
                  (by rw [postA, hpost, hpostT]; simp [List.append_assoc])
              refine ⟨pend', w', hpost', hpend', ?_⟩
              have hpush := i2pRun_op_push Tok.minus 2 rfl (le_refl 2)
                (fun s hc => by cases hc) (fun hc => by cases hc) (fun hc => by cases hc)
                pend S (out ++ w) hpend hS (preT ++ preL)
              rw [List.cons_append, hpush, i2pRun_append_ok _ _ _ _ hrT]
              simp only [List.append_assoc, List.singleton_append] at hrL ⊢
              exact hrL
          · rw [parseELoop_stop n acc tk ts' hplus hminus] at h
            simp only [Option.some.injEq, Prod.mk.injEq] at h
            obtain ⟨h1, h2⟩ := h
            subst h1; subst h2
            refine ⟨[], by simp, fun hx => hx, ?_⟩
            intro S out pend w hS hpend hpost
            exact ⟨pend, w, hpost, hpend, by rw [i2pRun]⟩
    have hE : StmtE (n + 1) := by
      intro ts e rest h hwf
      have h' : (match parseT1 n ts with
        | some (t, r) => parseELoop n t r
        | none => none) = some (e, rest) := h
      cases ht1 : parseT1 n ts with
      | none => rw [ht1] at h'; cases h'
      | some tr =>
        obtain ⟨t, r₀⟩ := tr
        rw [ht1] at h'
        obtain ⟨preT, hpreT, hwft, hrunT⟩ := ihT1 _ _ _ ht1 hwf
        have hwfr : ∀ t' ∈ r₀, wfTok t' = true := by
          intro t' ht'
          exact hwf t' (hpreT ▸ List.mem_append.2 (.inr ht'))
        obtain ⟨preL, hpreL, hwfe, hrunL⟩ := ihEL _ _ _ _ h' hwfr
        refine ⟨preT ++ preL, by rw [hpreT, hpreL, List.append_assoc], hwfe hwft, ?_⟩
        intro S out hS
        obtain ⟨pendT, wT, hpostT, hpendT, hrT⟩ :=
          hrunT S out (BlockedLT_mono 2 3 (by omega) S hS)
        obtain ⟨pend', w', hpost', hpend', hrL⟩ :=
          hrunL S out pendT wT hS (PendGE_mono 2 3 (by omega) _ hpendT) hpostT
        exact ⟨pend', w', hpost', hpend',
          by rw [i2pRun_append_ok _ _ _ _ hrT]; exact hrL⟩
    exact ⟨hP, hU, hTL, hT1, hT, hEL, hE⟩

/-! ## Parenthesis accounting of a successful conversion run -/

/-- One successful conversion step balances the `(` count of the stack
against the parentheses of the consumed token. -/
theorem i2pStep_opensIn (S out : List Tok) (t : Tok) (S' out' : List Tok)
    (h : i2pStep (S, out) t = .ok (S', out')) :
    opensIn S' + closesIn [t] = opensIn S + opensIn [t] := by
  cases t with
  | num s =>
    cases s with
    | nil => cases h
    | cons c cs =>
      by_cases hdig : c.isDigit
      · rw [i2pStep_num_digit S out c cs hdig] at h
        simp only [Except.ok.injEq, Prod.mk.injEq] at h
        rw [← h.1]
        simp [opensIn, closesIn]
      · rw [i2pStep_num_nondigit S out c cs (by simpa using hdig)] at h
        rw [opFold_opensIn S out _ S' out' h (by intro hc; cases hc)]
        simp [opensIn, closesIn]
  | lparen =>
    have h' : Except.ok ((Tok.lparen :: S : List Tok), out) = Except.ok (S', out') := h
    simp only [Except.ok.injEq, Prod.mk.injEq] at h'
    rw [← h'.1]
    simp [opensIn, closesIn]
    omega
  | rparen =>
    have h' : (match popUntilLparen S [] with
      | some (popped, rest) => (Except.ok (rest, out ++ popped) : Except Failure _)
      | none => .error (.fault .indexError)) = .ok (S', out') := h
    cases hpop : popUntilLparen S [] with
    | none => rw [hpop] at h'; cases h'
    | some pr =>
      obtain ⟨popped, S₀⟩ := pr
      rw [hpop] at h'
      simp only [Except.ok.injEq, Prod.mk.injEq] at h'
      have := (popUntilLparen_opensIn S [] popped S₀ hpop).1
      rw [← h'.1]
      simp [opensIn, closesIn]
      omega
  | plus =>
    have h' : opFold S out Tok.plus = .ok (S', out') := h
    rw [opFold_opensIn S out _ S' out' h' (by intro hc; cases hc)]
    simp [opensIn, closesIn]
  | minus =>
    have h' : opFold S out Tok.minus = .ok (S', out') := h
    rw [opFold_opensIn S out _ S' out' h' (by intro hc; cases hc)]
    simp [opensIn, closesIn]
  | times =>
    have h' : opFold S out Tok.times = .ok (S', out') := h
    rw [opFold_opensIn S out _ S' out' h' (by intro hc; cases hc)]
    simp [opensIn, closesIn]
  | div =>
    have h' : opFold S out Tok.div = .ok (S', out') := h
    rw [opFold_opensIn S out _ S' out' h' (by intro hc; cases hc)]
    simp [opensIn, closesIn]
  | colon =>
    have h' : opFold S out Tok.colon = .ok (S', out') := h
    rw [opFold_opensIn S out _ S' out' h' (by intro hc; cases hc)]
    simp [opensIn, closesIn]
  | tilde =>
    have h' : opFold S out Tok.tilde = .ok (S', out') := h
    rw [opFold_opensIn S out _ S' out' h' (by intro hc; cases hc)]
    simp [opensIn, closesIn]

/-- A successful conversion run balances the stack's `(` count against the
parentheses of the consumed tokens. -/
theorem i2pRun_opensIn (l : List Tok) :
    ∀ (st st' : List Tok × List Tok), i2pRun st l = .ok st' →
      opensIn st'.1 + closesIn l = opensIn st.1 + opensIn l := by
  induction l with
  | nil =>
    intro st st' h
    rw [i2pRun] at h
    cases h
    simp [closesIn, opensIn]
  | cons t l ih =>
    intro st st' h
    rw [i2pRun] at h
    cases hs : i2pStep st t with
    | error e => rw [hs] at h; cases h
    | ok st₁ =>
      rw [hs] at h
      obtain ⟨S, out⟩ := st
      obtain ⟨S₁, out₁⟩ := st₁
      have hstep := i2pStep_opensIn S out t S₁ out₁ hs
      have hrun := ih _ _ h
      simp only [closesIn, opensIn] at hstep hrun ⊢
      omega

/-- Every prefix of the tokens of a successful conversion run closes at
most as many parentheses as it opens, plus what was already stacked. -/
theorem i2pRun_prefix (l : List Tok) :
    ∀ (st st' : List Tok × List Tok), i2pRun st l = .ok st' →
      ∀ n, closesIn (l.take n) ≤ opensIn (l.take n) + opensIn st.1 := by
  induction l with
  | nil =>
    intro st st' _ n
    simp [List.take_nil, closesIn, opensIn]
  | cons t l ih =>
    intro st st' h n
    rw [i2pRun] at h
    cases hs : i2pStep st t with
    | error e => rw [hs] at h; cases h
    | ok st₁ =>
      rw [hs] at h
      cases n with
      | zero => simp [closesIn, opensIn]
      | succ m =>
        obtain ⟨S, out⟩ := st
        obtain ⟨S₁, out₁⟩ := st₁
        have hstep := i2pStep_opensIn S out t S₁ out₁ hs
        have hrun := ih _ _ h m
        rw [List.take_succ_cons]
        simp only [closesIn, opensIn] at hstep hrun ⊢
        omega

/-! ## The validator accepts balanced token lists of length at least two -/

theorem cpLoop_ok : ∀ (rest : List Tok) (o c : Nat),
    (∀ n, c + closesIn (rest.take n) ≤ o + opensIn (rest.take n)) →
    (c + closesIn rest = o + opensIn rest) →
    cpLoop rest o c = .ok () := by
  intro rest
  induction rest with
  | nil =>
    intro o c _ heq
    simp only [closesIn, opensIn] at heq
    rw [cpLoop, if_neg (by omega)]
  | cons t ts ih =>
    intro o c hpre heq
    have h0 := hpre 0
    simp only [List.take_zero, closesIn, opensIn] at h0
    rw [cpLoop, if_neg (by omega)]
    refine ih _ _ ?_ ?_
    · intro n
      have := hpre (n + 1)
      rw [List.take_succ_cons] at this
      simp only [closesIn, opensIn] at this ⊢
      omega
    · simp only [closesIn, opensIn] at heq ⊢
      omega

theorem check_parentheses_ok (tl : List Tok)
    (hpre : ∀ n, closesIn (tl.take n) ≤ opensIn (tl.take n))
    (heq : closesIn tl = opensIn tl) (hlen : 2 ≤ tl.length) :
    check_parentheses tl = .ok () := by
  match tl with
  | [] => simp at hlen
  | [t] => simp at hlen
  | t0 :: t1 :: rest =>
    rw [check_parentheses]
    refine cpLoop_ok rest _ _ ?_ ?_
    · intro n
      have := hpre (n + 2)
      rw [List.take_succ_cons, List.take_succ_cons] at this
      simp only [closesIn, opensIn] at this ⊢
      omega
    · simp only [closesIn, opensIn] at heq ⊢
      omega

/-! ## A successful tokenization yields at least one operator token -/

theorem opish_charToTok (c : Char) (h : ¬(c = '(' ∨ c = ')')) :
    opish (charToTok c) = true := by
  rw [charToTok, if_neg (fun hc => h (Or.inl hc)), if_neg (fun hc => h (Or.inr hc))]
  split
  · rfl
  · split
    · rfl
    · split
      · rfl
      · split
        · rfl
        · split
          · rfl
          · rfl

/-- The operator count never exceeds the number of operator tokens. -/
theorem scanTokens_opish (s : List Char) (prev : Option Char) (acc : List Tok)
    (ops : Nat) (tl : List Tok) (n : Nat)
    (h : scanTokens s prev acc ops = .ok (tl, n)) :
    n + acc.countP opish ≤ ops + tl.countP opish := by
  induction s, prev, acc, ops using scanTokens.induct generalizing tl n with
  | case1 prev acc ops =>
    rw [scanTokens_nil] at h
    simp only [Except.ok.injEq, Prod.mk.injEq] at h
    rw [← h.1, ← h.2]
  | case2 prev acc ops c rest hdig tail ih =>
    rw [scanTokens_digit c rest prev acc ops hdig] at h
    have := ih _ _ h
    simp only [List.countP_append, List.countP_cons, List.countP_nil] at this
    simp only [opish] at this
    omega
  | case3 prev acc ops c rest hdig hop hcond ih =>
    rw [scanTokens_op c rest prev acc ops (by simpa using hdig) hop, if_pos hcond] at h
    have := ih _ _ h
    simp only [List.countP_append, List.countP_cons, List.countP_nil] at this
    simp only [opish] at this
    omega
  | case4 prev acc ops c rest hdig hop hcond ih =>
    rw [scanTokens_op c rest prev acc ops (by simpa using hdig) hop, if_neg hcond] at h
    have := ih _ _ h
    by_cases hpar : c = '(' ∨ c = ')'
    · rw [dif_pos hpar] at this
      rcases hpar with hc | hc <;> subst hc <;>
        (simp only [List.countP_append, List.countP_cons, List.countP_nil,
          charToTok, opish] at this; simp at this; omega)
    · rw [dif_neg hpar] at this
      have hbin := opish_charToTok c hpar
      simp only [List.countP_append, List.countP_cons, List.countP_nil, hbin] at this
      simp at this
      omega
  | case5 prev acc ops c rest hdig hop =>
    rw [scanTokens_bad c rest prev acc ops (by simpa using hdig) (by simpa using hop)] at h
    cases h

/-! ## The reference parser rejects the empty and one-operator lists -/

theorem parseU_nil (fuel : Nat) : parseU fuel [] = none := by
  cases fuel with
  | zero => rfl
  | succ n =>
    show parseP n [] = none
    exact parseP_nil n

theorem parseT1_nil (fuel : Nat) : parseT1 fuel [] = none := by
  cases fuel with
  | zero => rfl
  | succ n =>
    show (match parseU n [] with
      | some (u, r) => parseTLoop n u r
      | none => none) = none
    rw [parseU_nil]

theorem parseE_nil (fuel : Nat) : parseE fuel [] = none := by
  cases fuel with
  | zero => rfl
  | succ n =>
    show (match parseT1 n [] with
      | some (t, r) => parseELoop n t r
      | none => none) = none
    rw [parseT1_nil]

theorem parseP_single_op (t : Tok) (h : opish t = true) (fuel : Nat) :
    parseP fuel [t] = none := by
  cases fuel with
  | zero => rfl
  | succ n => cases t <;> first | rfl | cases h

theorem parseU_single_op (t : Tok) (h : opish t = true) (fuel : Nat) :
    parseU fuel [t] = none := by
  cases fuel with
  | zero => rfl
  | succ n =>
    by_cases ht : t = Tok.tilde
    · subst ht
      show (match parseP n [] with
        | some (p, r) => some (AExp.neg p, r)
        | none => none) = none
      rw [parseP_nil]
    · rw [parseU_eq_parseP n [t] (by intro r hr; injection hr with h1 h2; exact ht h1)]
      exact parseP_single_op t h n

theorem parseT1_single_op (t : Tok) (h : opish t = true) (fuel : Nat) :
    parseT1 fuel [t] = none := by
  cases fuel with
  | zero => rfl
  | succ n =>
    show (match parseU n [t] with
      | some (u, r) => parseTLoop n u r
      | none => none) = none
    rw [parseU_single_op t h]

theorem parseE_single_op (t : Tok) (h : opish t = true) (fuel : Nat) :
    parseE fuel [t] = none := by
  cases fuel with
  | zero => rfl
  | succ n =>
    show (match parseT1 n [t] with
      | some (t', r) => parseELoop n t' r
      | none => none) = none
    rw [parseT1_single_op t h]

/-- C1: on every valid balanced expression — one whose tokens the reference
grammar parses completely (standard precedence, left-to-right
associativity, unary minus binding a single primary) — the pipeline
returns exactly the standard arithmetic value of the parsed expression;
in particular `evaluate("2+3*4") = 14` and `evaluate("(2+3)*4") = 20`. -/
theorem c1_standard_infix_arithmetic :
    (∀ (s : String) (fuel : Nat) (tl : List Tok) (ast : AExp) (v : Value),
      split_to_tokens s = .ok tl → parseE fuel tl = some (ast, []) →
      evalA ast = some v → eval_math_expr s = .ok v) ∧
    eval_math_expr "2+3*4" = .ok (.i 14) ∧
    eval_math_expr "(2+3)*4" = .ok (.i 20) := by
  refine ⟨?_, ?_, ?_⟩
  · intro s fuel tl ast v hsplit hparse heval
    have hsplit' := hsplit
    rw [split_to_tokens] at hsplit'
    have hscan : ∃ ops, scanTokens (s.data.filter (fun c => c ≠ ' ')) none [] 0 =
        .ok (tl, ops) ∧ ops ≠ 0 := by
      split at hsplit'
      · cases hsplit'
      · rename_i tokenList ops heq
        split at hsplit'
        · cases hsplit'
        · rename_i hops
          cases hsplit'
          exact ⟨ops, heq, hops⟩
    obtain ⟨ops, hscan, hops⟩ := hscan
    have hwf : ∀ t ∈ tl, wfTok t = true :=
      scanTokens_wf _ _ _ _ _ _ hscan (by intro t ht; cases ht)
    obtain ⟨pre, hpre, hwfa, hrun⟩ := (parse_sound fuel).2.2.2.2.2.2 tl ast [] hparse hwf
    rw [List.append_nil] at hpre
    subst hpre
    obtain ⟨pend, w, hpost, hpend, hrE⟩ := hrun [] [] trivial
    have hconv : toPostfixTokens tl = .ok (postA ast) := by
      rw [toPostfixTokens, hrE, hpost]
      simp
    have hcalc : postfix_calc (postA ast) = .ok v := by
      rw [postfix_calc, pcRun_postA ast v hwfa heval []]
    have hcount := i2pRun_opensIn tl ([], []) _ hrE
    have hpend0 : opensIn pend = 0 := PendGE_opensIn pend hpend
    have htot : closesIn tl = opensIn tl := by
      simp only [opensIn_append, opensIn, hpend0] at hcount
      omega
    have hprefix : ∀ n, closesIn (tl.take n) ≤ opensIn (tl.take n) := by
      intro n
      have := i2pRun_prefix tl ([], []) _ hrE n
      simpa [opensIn] using this
    have hop : ∃ t ∈ tl, opish t = true := by
      have := scanTokens_opish _ _ _ _ _ _ hscan
      simp only [List.countP_nil] at this
      exact List.countP_pos.1 (by omega)
    have hlen : 2 ≤ tl.length := by
      obtain ⟨t0, ht0, hopt0⟩ := hop
      match tl, ht0, hparse with
      | [x], ht0, hparse =>
        have hx : t0 = x := by simpa using ht0
        subst hx
        rw [parseE_single_op t0 hopt0 fuel] at hparse
        cases hparse
      | x :: y :: rest, _, _ => simp
    have hcheck : check_parentheses tl = .ok () := check_parentheses_ok tl hprefix htot hlen
    rw [eval_math_expr, hsplit]
    show (match check_parentheses tl with
      | .error e => .error e
      | .ok _ =>
        match toPostfixTokens tl with
        | .error e => .error e
        | .ok postfixExpr => postfix_calc postfixExpr) = Except.ok v
    rw [hcheck]
    show (match toPostfixTokens tl with
      | .error e => .error e
      | .ok postfixExpr => postfix_calc postfixExpr) = Except.ok v
    rw [hconv]
    exact hcalc
  · rw [eval_math_expr, tokens_ex1]
    decide
  · rw [eval_math_expr, tokens_ex2]
    decide

/-- Witness for C1 at the expression `2+3*4`, parsed with fuel 10. -/
theorem c1_standard_infix_arithmetic_witness :
    eval_math_expr "2+3*4" = .ok (.i 14) :=
  c1_standard_infix_arithmetic.1 "2+3*4" 10
    [.num ['2'], .plus, .num ['3'], .times, .num ['4']]
    (.add (.num ['2']) (.mul (.num ['3']) (.num ['4']))) (.i 14)
    tokens_ex1 (by decide) (by decide)

end Calculator
